import Mathlib

/- Shallow embedding of the RESP 2.0 codec of src/lib.rs.

   Byte buffers are lists of naturals (a Rust u8 is a value below 256); text
   values (&str / Cow<str>) are lists of UTF-8 bytes.  Fallible functions
   return explicit results.  The constructor `crash` of `PResult` models a
   Rust panic: an out-of-bounds index `buf[i]` or an out-of-bounds slice
   `&buf[a..b]`.  All definitions are structurally recursive so that closed
   applications reduce by `rfl`. -/

/-- Value model: the `RESP` enum of src/lib.rs, with text payloads as UTF-8
byte lists (the Rust type stores `Cow<str>`, whose bytes are those lists). -/
inductive RESP : Type
| SimpleString (s : List Nat)
| Error (s : List Nat)
| Integer (i : Int)
| BulkString (s : List Nat)
| NullBulkString
| Array (elems : List RESP)
| NullArray

/-- Error model of the parsing direction (`ParseError` of src/lib.rs; the
payloads of `Utf8Error` and `ParseIntError` are dropped, only the kind is
kept). The misspelled name `CLRFNotFound` is the source's own. -/
inductive ParseError : Type
| UnknownByte (b : Nat)
| CLRFNotFound
| Utf8Error
| ParseIntError
deriving DecidableEq

/-- Result of a parsing-side function: `crash` models a Rust panic
(out-of-bounds index or slice), the other two mirror `Result`. -/
inductive PResult (α : Type) : Type
| crash
| err (e : ParseError)
| ok (a : α)

/-- Error model of the encoding direction (`DumpError` of src/lib.rs). -/
inductive DumpError : Type
| BufTooSmall
deriving DecidableEq

/-- Smallest i64 value (Rust `i64::MIN`). -/
def min64 : Int := -(2 ^ 63)

/-- Largest i64 value (Rust `i64::MAX`). -/
def max64 : Int := 2 ^ 63 - 1

/-- Fuelled worker for decimal printing, most significant digit first.
`natDecGo (n+1) n` always has enough fuel since `n/10 < n`. -/
def natDecGo : Nat → Nat → List Nat
| 0, _ => []
| fuel + 1, n => if n < 10 then [48 + n] else natDecGo fuel (n / 10) ++ [48 + n % 10]

/-- ASCII decimal digits of a natural number (Rust `usize::to_string`). -/
def natDecimal (n : Nat) : List Nat := natDecGo (n + 1) n

/-- ASCII decimal text of a signed integer (Rust `i64::to_string`). -/
def intDecimal (i : Int) : List Nat :=
  if i < 0 then 45 :: natDecimal (-i).toNat else natDecimal i.toNat

/-- Accumulating decimal reader; fails on any byte that is not an ASCII
digit, as Rust's integer `from_str` does. -/
def digitsToNatAux : List Nat → Nat → Option Nat
| [], acc => some acc
| b :: rest, acc =>
  if 48 ≤ b ∧ b ≤ 57 then digitsToNatAux rest (acc * 10 + (b - 48)) else none

/-- Value of a nonempty, all-digit byte string (none otherwise). -/
def digitsNat : List Nat → Option Nat
| [] => none
| l => digitsToNatAux l 0

/-- Range check of a nonnegative parsed magnitude against `i64::MAX`. -/
def posOf : Option Nat → Option Int
| none => none
| some m => if (m : Int) ≤ max64 then some (m : Int) else none

/-- Range check of a negated parsed magnitude against `i64::MIN`. -/
def negOf : Option Nat → Option Int
| none => none
| some m => if (m : Int) ≤ 2 ^ 63 then some (-(m : Int)) else none

/-- Rust `str::parse::<i64>()`: optional `+`/`-` sign, at least one ASCII
digit, and the value must fit in a signed 64-bit integer. -/
def parseI64 : List Nat → Option Int
| [] => none
| b :: rest =>
  if b = 43 then posOf (digitsNat rest)
  else if b = 45 then negOf (digitsNat rest)
  else posOf (digitsNat (b :: rest))

/-- A UTF-8 continuation byte (0x80 to 0xBF). -/
def contB (b : Nat) : Bool := decide (128 ≤ b) && decide (b ≤ 191)

/-- Worker of the UTF-8 validator, structurally recursive on a fuel that
each step decrements while consuming at least one byte, so a fuel of the
list length always suffices. -/
def utf8Go : Nat → List Nat → Bool
| _, [] => true
| 0, _ :: _ => false
| fuel + 1, b :: rest =>
  if b ≤ 127 then utf8Go fuel rest
  else if b < 194 then false
  else if b ≤ 223 then
    match rest with
    | c1 :: rest1 => contB c1 && utf8Go fuel rest1
    | [] => false
  else if b ≤ 239 then
    match rest with
    | c1 :: c2 :: rest2 =>
      (if b = 224 then decide (160 ≤ c1) && decide (c1 ≤ 191)
       else if b = 237 then decide (128 ≤ c1) && decide (c1 ≤ 159)
       else contB c1) && contB c2 && utf8Go fuel rest2
    | _ => false
  else if b ≤ 244 then
    match rest with
    | c1 :: c2 :: c3 :: rest3 =>
      (if b = 240 then decide (144 ≤ c1) && decide (c1 ≤ 191)
       else if b = 244 then decide (128 ≤ c1) && decide (c1 ≤ 143)
       else contB c1) && contB c2 && contB c3 && utf8Go fuel rest3
    | _ => false
  else false

/-- Rust `str::from_utf8` validation: the RFC 3629 well-formedness table
(rejecting overlong forms, surrogates and code points above U+10FFFF). -/
def utf8Valid (l : List Nat) : Bool := utf8Go l.length l

/-- Byte at index i (Rust `buf[i]`; `none` when the index is out of bounds,
which in Rust is a panic). -/
def byteAt (buf : List Nat) (i : Nat) : Option Nat := (buf.drop i).head?

/-- The loop of `read_line`: scan from position `offset + current` for CR LF.
The last argument `s` is always `buf.drop (offset + current)`; the recursion
is structural on it.  The end-of-buffer test `current + 1 >= buf.len()` is
taken verbatim from the source (it does not account for `offset`), and the
two indexings `buf[offset+current]`, `buf[offset+current+1]` are the head of
`s` and of its tail, crashing when out of bounds exactly as Rust does. -/
def scan (buf : List Nat) (offset : Nat) : Nat → List Nat → PResult (Nat × List Nat)
| current, s =>
  if current + 1 ≥ buf.length then .err .CLRFNotFound
  else
    match s with
    | [] => .crash
    | b :: s1 =>
      if b = 13 then
        match s1 with
        | [] => .crash
        | b2 :: _ =>
          if b2 = 10 then
            if utf8Valid ((buf.drop offset).take current) then
              .ok (current + 2, (buf.drop offset).take current)
            else .err .Utf8Error
          else scan buf offset (current + 1) s1
      else scan buf offset (current + 1) s1

/-- `read_line` of src/lib.rs: find the CR LF terminator from `offset`,
return (bytes consumed, UTF-8 validated line content). -/
def read_line (buf : List Nat) (offset : Nat) : PResult (Nat × List Nat) :=
  scan buf offset 0 (buf.drop offset)

/-- The `for _ in 0..len` loop of the ARRAY arm of `parse_offset`: parse
`count` values back to back from position `start`, with `p` the recursive
parser (accumulating consumed bytes; any failure aborts and propagates). -/
def parseElemsGo (p : List Nat → Nat → PResult (Nat × RESP)) (buf : List Nat) :
    Nat → Nat → PResult (Nat × List RESP)
| _, 0 => .ok (0, [])
| start, count + 1 =>
  match p buf start with
  | .ok (l, v) =>
    match parseElemsGo p buf (start + l) count with
    | .ok (m, vs) => .ok (l + m, v :: vs)
    | .err e => .err e
    | .crash => .crash
  | .err e => .err e
  | .crash => .crash

/-- Body of `parse_offset` of src/lib.rs, parameterized by the parser `p`
used for the recursive calls on array elements.  Tag bytes: 43 `+`, 45 `-`,
58 `:`, 36 `$`, 42 `*`.  The BULK_STRING arm's slice
`&buf[offset+n+1 .. offset+n+1+len]` panics (crash) when its end exceeds
the buffer length, as in Rust. -/
def parseStep (p : List Nat → Nat → PResult (Nat × RESP)) (buf : List Nat)
    (offset : Nat) : PResult (Nat × RESP) :=
  match byteAt buf offset with
  | none => .crash
  | some b =>
    if b = 43 then
      match read_line buf (offset + 1) with
      | .ok (n, line) => .ok (n + 1, .SimpleString line)
      | .err e => .err e
      | .crash => .crash
    else if b = 45 then
      match read_line buf (offset + 1) with
      | .ok (n, line) => .ok (n + 1, .Error line)
      | .err e => .err e
      | .crash => .crash
    else if b = 58 then
      match read_line buf (offset + 1) with
      | .ok (n, line) =>
        match parseI64 line with
        | some i => .ok (n + 1, .Integer i)
        | none => .err .ParseIntError
      | .err e => .err e
      | .crash => .crash
    else if b = 36 then
      match read_line buf (offset + 1) with
      | .ok (n, line) =>
        match parseI64 line with
        | some len =>
          if len < 0 then .ok (n + 1, .NullBulkString)
          else if offset + n + 1 + len.toNat > buf.length then .crash
          else if utf8Valid ((buf.drop (offset + n + 1)).take len.toNat) then
            .ok (n + 1 + len.toNat + 2, .BulkString ((buf.drop (offset + n + 1)).take len.toNat))
          else .err .Utf8Error
        | none => .err .ParseIntError
      | .err e => .err e
      | .crash => .crash
    else if b = 42 then
      match read_line buf (offset + 1) with
      | .ok (n, line) =>
        match parseI64 line with
        | some len =>
          if len < 0 then .ok (n + 1, .NullArray)
          else
            match parseElemsGo p buf (offset + n + 1) len.toNat with
            | .ok (m, vs) => .ok (n + 1 + m, .Array vs)
            | .err e => .err e
            | .crash => .crash
        | none => .err .ParseIntError
      | .err e => .err e
      | .crash => .crash
    else .err (.UnknownByte b)

/-- `parse_offset` of src/lib.rs, with a fuel argument bounding the nesting
depth of the recursion on array elements (the Rust recursion is bounded only
by the input; each nesting level consumes at least three bytes, so the fuel
`buf.length + 1` used by `parse` below always suffices, and every theorem
supplies enough fuel explicitly). -/
def parseF : Nat → List Nat → Nat → PResult (Nat × RESP)
| 0 => fun _ _ => .crash
| fuel + 1 => parseStep (parseF fuel)

/-- `parse` of src/lib.rs: parse one RESP value from the start of `buf`. -/
def parse (buf : List Nat) : PResult (Nat × RESP) := parseF (buf.length + 1) buf 0

/-- `write_bytes` of src/lib.rs: bounds-checked write of `bytes` into the
buffer at `offset`.  Returns the updated buffer (Rust mutates it in place;
here the state is passed explicitly) together with the count written. -/
def write_bytes (buf : List Nat) (offset : Nat) (bytes : List Nat) :
    List Nat × Except DumpError Nat :=
  if offset + bytes.length > buf.length then (buf, .error .BufTooSmall)
  else (buf.take offset ++ bytes ++ buf.drop (offset + bytes.length), .ok bytes.length)

/-- `write_line` of src/lib.rs: tag byte, then the payload, then CR LF. -/
def write_line (buf : List Nat) (offset : Nat) (kind : Nat) (bytes : List Nat) :
    List Nat × Except DumpError Nat :=
  match write_bytes buf offset [kind] with
  | (buf1, .error e) => (buf1, .error e)
  | (buf1, .ok n1) =>
    match write_bytes buf1 (offset + n1) bytes with
    | (buf2, .error e) => (buf2, .error e)
    | (buf2, .ok n2) =>
      match write_bytes buf2 (offset + n1 + n2) [13, 10] with
      | (buf3, .error e) => (buf3, .error e)
      | (buf3, .ok n3) => (buf3, .ok (n1 + n2 + n3))

mutual
/-- `dump_offset` of src/lib.rs: recursive descent encoder writing at
increasing offsets into the caller's buffer. -/
def dump_offset : RESP → List Nat → Nat → List Nat × Except DumpError Nat
| .SimpleString s, buf, offset => write_line buf offset 43 s
| .Error s, buf, offset => write_line buf offset 45 s
| .Integer i, buf, offset => write_line buf offset 58 (intDecimal i)
| .BulkString s, buf, offset =>
  match write_line buf offset 36 (natDecimal s.length) with
  | (buf1, .error e) => (buf1, .error e)
  | (buf1, .ok n) =>
    match write_bytes buf1 (offset + n) s with
    | (buf2, .error e) => (buf2, .error e)
    | (buf2, .ok m) =>
      match write_bytes buf2 (offset + n + m) [13, 10] with
      | (buf3, .error e) => (buf3, .error e)
      | (buf3, .ok k) => (buf3, .ok (n + m + k))
| .NullBulkString, buf, offset => write_bytes buf offset [36, 45, 49, 13, 10]
| .Array arr, buf, offset =>
  match write_line buf offset 42 (natDecimal arr.length) with
  | (buf1, .error e) => (buf1, .error e)
  | (buf1, .ok n) =>
    match dumpElems arr buf1 (offset + n) with
    | (buf2, .error e) => (buf2, .error e)
    | (buf2, .ok m) => (buf2, .ok (n + m))
| .NullArray, buf, offset => write_bytes buf offset [42, 45, 49, 13, 10]

/-- The `for r in arr` loop of the Array arm of `dump_offset`. -/
def dumpElems : List RESP → List Nat → Nat → List Nat × Except DumpError Nat
| [], buf, _ => (buf, .ok 0)
| r :: rest, buf, offset =>
  match dump_offset r buf offset with
  | (buf1, .error e) => (buf1, .error e)
  | (buf1, .ok m) =>
    match dumpElems rest buf1 (offset + m) with
    | (buf2, .error e) => (buf2, .error e)
    | (buf2, .ok k) => (buf2, .ok (m + k))
end

/-- `dump` of src/lib.rs: encode `resp` into `buf` from offset 0. -/
def dump (resp : RESP) (buf : List Nat) : List Nat × Except DumpError Nat :=
  dump_offset resp buf 0

mutual
/-- Canonical wire encoding of a value, written from the grammar table of
the spec (tag byte, decimal length or integer text, CR LF terminators).
This is the spec-side definition which `dump` is proved to refine. -/
def encValue : RESP → List Nat
| .SimpleString s => 43 :: (s ++ [13, 10])
| .Error s => 45 :: (s ++ [13, 10])
| .Integer i => 58 :: (intDecimal i ++ [13, 10])
| .BulkString s => 36 :: (natDecimal s.length ++ [13, 10] ++ s ++ [13, 10])
| .NullBulkString => [36, 45, 49, 13, 10]
| .Array l => 42 :: (natDecimal l.length ++ [13, 10] ++ encList l)
| .NullArray => [42, 45, 49, 13, 10]

/-- Concatenation of the canonical encodings of a list of values. -/
def encList : List RESP → List Nat
| [] => []
| v :: t => encValue v ++ encList t
end

/-- No CR (13) and no LF (10) byte occurs in the text payload. -/
def noCRLF (s : List Nat) : Bool := s.all fun b => (b != 13) && (b != 10)

mutual
/-- A value representable by the Rust data type and meeting the spec's
invariants: texts are valid UTF-8, SimpleString/Error text has no CR/LF,
integers fit in i64 (automatic for the Rust `i64` field), and string/array
lengths fit in the Rust allocation bound `isize::MAX` (automatic for Rust
`str` and `Vec`, which cannot exceed it). -/
def validV : RESP → Bool
| .SimpleString s => utf8Valid s && noCRLF s
| .Error s => utf8Valid s && noCRLF s
| .Integer i => decide (min64 ≤ i) && decide (i ≤ max64)
| .BulkString s => utf8Valid s && decide (s.length < 2 ^ 63)
| .NullBulkString => true
| .Array l => decide (l.length < 2 ^ 63) && validList l
| .NullArray => true

/-- All members of the list are valid. -/
def validList : List RESP → Bool
| [] => true
| v :: t => validV v && validList t
end

mutual
/-- Nesting depth of a value: the recursion depth (fuel) that `parseF`
needs to reparse its encoding. -/
def depthV : RESP → Nat
| .Array l => depthList l + 1
| _ => 1

/-- Maximum nesting depth over a list of values. -/
def depthList : List RESP → Nat
| [] => 0
| v :: t => max (depthV v) (depthList t)
end

/-- The elements of `cs` parse back to back, left to right, starting at
position `start`: each entry records (consumed bytes, value), and each
element begins where the previous one ended. -/
def chainParses (fuel : Nat) (buf : List Nat) : Nat → List (Nat × RESP) → Prop
| _, [] => True
| start, c :: rest => parseF fuel buf start = .ok c ∧ chainParses fuel buf (start + c.1) rest

/-- Strong induction over RESP values by size, giving the hypothesis for
every strictly smaller value (in particular for every array element). -/
theorem respStrongInd (P : RESP → Prop)
    (step : ∀ v, (∀ w, sizeOf w < sizeOf v → P w) → P v) : ∀ v, P v := by
  have aux : ∀ k v, sizeOf v < k → P v := by
    intro k
    induction k with
    | zero => intro v hv; exact absurd hv (Nat.not_lt_zero _)
    | succ k ih => intro v hv; exact step v fun w hw => ih w (by omega)
  exact fun v => aux (sizeOf v + 1) v (Nat.lt_succ_self _)

/-- Array elements are smaller than the array value. -/
theorem sizeOf_mem_lt_array {r : RESP} {l : List RESP} (h : r ∈ l) :
    sizeOf r < sizeOf (RESP.Array l) := by
  have h1 : sizeOf r < sizeOf l := List.sizeOf_lt_of_mem h
  have h2 : sizeOf (RESP.Array l) = 1 + sizeOf l := by simp
  omega

/-- Dropping the length of a known prefix exposes the rest. -/
theorem drop_pre {α : Type} (l₁ l₂ : List α) {n : Nat} (h : l₁.length = n) :
    (l₁ ++ l₂).drop n = l₂ := by subst h; exact List.drop_left l₁ l₂

/-- Taking the length of a known prefix yields that prefix. -/
theorem take_pre {α : Type} (l₁ l₂ : List α) {n : Nat} (h : l₁.length = n) :
    (l₁ ++ l₂).take n = l₁ := by subst h; exact List.take_left l₁ l₂

/-- One more step of drop after a cons-shaped drop. -/
theorem drop_cons_step {α : Type} {buf : List α} {k : Nat} {b : α} {t : List α}
    (h : buf.drop k = b :: t) : buf.drop (k + 1) = t := by
  have : (buf.drop k).drop 1 = buf.drop (k + 1) := by
    rw [List.drop_drop]
  rw [← this, h]
  rfl

/-- A cons-shaped drop determines the buffer length. -/
theorem length_of_drop_cons {α : Type} {buf : List α} {k : Nat} {b : α} {t : List α}
    (h : buf.drop k = b :: t) : buf.length = k + t.length + 1 := by
  have hle : ¬ buf.length ≤ k := by
    intro hle
    rw [List.drop_eq_nil_of_le hle] at h
    exact List.noConfusion h
  have := List.length_drop k buf
  rw [h] at this
  simp at this
  omega

/-- The fuelled decimal printer is fuel-independent once the fuel exceeds
the number being printed. -/
theorem natDecGo_irrel : ∀ f f' n, n < f → n < f' → natDecGo f n = natDecGo f' n := by
  intro f
  induction f with
  | zero => intro f' n h _; omega
  | succ f ih =>
    intro f' n h h'
    match f', h' with
    | f' + 1, h' =>
      show natDecGo (f + 1) n = natDecGo (f' + 1) n
      rw [natDecGo, natDecGo]
      by_cases h10 : n < 10
      · simp [h10]
      · have hdiv : n / 10 < n := Nat.div_lt_self (by omega) (by omega)
        simp only [h10, if_false]
        rw [ih f' (n / 10) (by omega) (by omega)]

/-- Unfolding equation for natDecimal. -/
theorem natDecimal_eq (n : Nat) :
    natDecimal n = if n < 10 then [48 + n] else natDecimal (n / 10) ++ [48 + n % 10] := by
  show natDecGo (n + 1) n = _
  rw [natDecGo]
  by_cases h10 : n < 10
  · simp [h10]
  · have hdiv : n / 10 < n := Nat.div_lt_self (by omega) (by omega)
    simp only [h10, if_false]
    rw [natDecGo_irrel n (n / 10 + 1) (n / 10) (by omega) (by omega)]
    rfl

/-- Every byte of a decimal representation is an ASCII digit. -/
theorem natDecimal_digits : ∀ n, ∀ b ∈ natDecimal n, 48 ≤ b ∧ b ≤ 57 := by
  intro n
  induction n using Nat.strong_induction_on with
  | _ n ih =>
    intro b hb
    rw [natDecimal_eq] at hb
    by_cases h10 : n < 10
    · simp [h10] at hb
      omega
    · have hdiv : n / 10 < n := Nat.div_lt_self (by omega) (by omega)
      simp only [h10, if_false, List.mem_append, List.mem_singleton] at hb
      rcases hb with hb | hb
      · exact ih (n / 10) hdiv b hb
      · have : n % 10 < 10 := Nat.mod_lt _ (by omega)
        omega

/-- A decimal representation is never empty. -/
theorem natDecimal_ne_nil (n : Nat) : natDecimal n ≠ [] := by
  rw [natDecimal_eq]
  by_cases h10 : n < 10
  · simp [h10]
  · simp [h10]

/-- The accumulating reader distributes over append. -/
theorem digitsToNatAux_append : ∀ (l₁ l₂ : List Nat) (acc : Nat),
    digitsToNatAux (l₁ ++ l₂) acc =
      match digitsToNatAux l₁ acc with
      | some a => digitsToNatAux l₂ a
      | none => none := by
  intro l₁
  induction l₁ with
  | nil => intro l₂ acc; rfl
  | cons b t ih =>
    intro l₂ acc
    show digitsToNatAux (b :: (t ++ l₂)) acc = _
    rw [digitsToNatAux]
    by_cases hd : 48 ≤ b ∧ b ≤ 57
    · rw [if_pos hd, ih]
      rw [show digitsToNatAux (b :: t) acc = if 48 ≤ b ∧ b ≤ 57 then
            digitsToNatAux t (acc * 10 + (b - 48)) else none from rfl]
      rw [if_pos hd]
    · rw [if_neg hd]
      rw [show digitsToNatAux (b :: t) acc = if 48 ≤ b ∧ b ≤ 57 then
            digitsToNatAux t (acc * 10 + (b - 48)) else none from rfl]
      rw [if_neg hd]

/-- Reading back the decimal digits of n recovers n (with accumulator). -/
theorem digitsToNatAux_natDecimal : ∀ n acc,
    digitsToNatAux (natDecimal n) acc = some (acc * 10 ^ (natDecimal n).length + n) := by
  intro n
  induction n using Nat.strong_induction_on with
  | _ n ih =>
    intro acc
    by_cases h10 : n < 10
    · rw [natDecimal_eq, if_pos h10]
      show (if 48 ≤ 48 + n ∧ 48 + n ≤ 57 then digitsToNatAux [] (acc * 10 + (48 + n - 48))
            else none) = _
      rw [if_pos (by omega)]
      show some (acc * 10 + (48 + n - 48)) = some (acc * 10 ^ ([48 + n].length) + n)
      congr 1
      have h1 : [48 + n].length = 1 := rfl
      rw [h1, pow_one]
      omega
    · have hdiv : n / 10 < n := Nat.div_lt_self (by omega) (by omega)
      have hm : n % 10 < 10 := Nat.mod_lt _ (by omega)
      rw [natDecimal_eq, if_neg h10, digitsToNatAux_append, ih (n / 10) hdiv acc]
      show (if 48 ≤ 48 + n % 10 ∧ 48 + n % 10 ≤ 57 then
              digitsToNatAux [] ((acc * 10 ^ (natDecimal (n / 10)).length + n / 10) * 10
                + (48 + n % 10 - 48))
            else none) = _
      rw [if_pos (by omega)]
      show some _ = some _
      congr 1
      have h48 : 48 + n % 10 - 48 = n % 10 := by omega
      rw [h48, List.length_append]
      have h1 : [48 + n % 10].length = 1 := rfl
      rw [h1, pow_succ]
      have hexp : (acc * 10 ^ (natDecimal (n / 10)).length + n / 10) * 10
          = acc * (10 ^ (natDecimal (n / 10)).length * 10) + n / 10 * 10 := by ring
      rw [hexp]
      generalize acc * (10 ^ (natDecimal (n / 10)).length * 10) = R
      omega

/-- Reading back the decimal digits of n recovers n. -/
theorem digitsNat_natDecimal (n : Nat) : digitsNat (natDecimal n) = some n := by
  obtain ⟨b, t, heq⟩ := List.exists_cons_of_ne_nil (natDecimal_ne_nil n)
  rw [heq]
  show digitsToNatAux (b :: t) 0 = some n
  rw [← heq, digitsToNatAux_natDecimal]
  simp

/-- parseI64 reads back the decimal text of a natural below 2^63. -/
theorem parseI64_natDecimal (n : Nat) (h : n < 2 ^ 63) :
    parseI64 (natDecimal n) = some (n : Int) := by
  obtain ⟨b, t, heq⟩ := List.exists_cons_of_ne_nil (natDecimal_ne_nil n)
  have hb : 48 ≤ b ∧ b ≤ 57 := natDecimal_digits n b (by rw [heq]; exact List.mem_cons_self _ _)
  rw [heq]
  show (if b = 43 then posOf (digitsNat t)
        else if b = 45 then negOf (digitsNat t)
        else posOf (digitsNat (b :: t))) = some (n : Int)
  rw [if_neg (by omega), if_neg (by omega), ← heq, digitsNat_natDecimal]
  show (if (n : Int) ≤ max64 then some (n : Int) else none) = some (n : Int)
  rw [if_pos]
  show (n : Int) ≤ 2 ^ 63 - 1
  omega

/-- parseI64 reads back the decimal text of any i64 value. -/
theorem parseI64_intDecimal (i : Int) (h1 : min64 ≤ i) (h2 : i ≤ max64) :
    parseI64 (intDecimal i) = some i := by
  by_cases hneg : i < 0
  · rw [intDecimal, if_pos hneg]
    show (if (45 : Nat) = 43 then posOf (digitsNat (natDecimal (-i).toNat))
          else if (45 : Nat) = 45 then negOf (digitsNat (natDecimal (-i).toNat))
          else posOf (digitsNat (45 :: natDecimal (-i).toNat))) = some i
    rw [if_neg (by omega), if_pos rfl, digitsNat_natDecimal]
    show (if (((-i).toNat : Int)) ≤ 2 ^ 63 then some (-(((-i).toNat : Int))) else none) = some i
    have hto : (((-i).toNat : Int)) = -i := Int.toNat_of_nonneg (by omega)
    rw [hto, if_pos (by simp [min64] at h1; omega)]
    simp
  · rw [intDecimal, if_neg hneg]
    have hnn : 0 ≤ i := by omega
    have hlt : i.toNat < 2 ^ 63 := by
      simp [max64] at h2
      omega
    rw [parseI64_natDecimal i.toNat hlt, Int.toNat_of_nonneg hnn]

/-- Decimal text of a natural is CR-free ASCII. -/
theorem natDecimal_ascii (n : Nat) : ∀ b ∈ natDecimal n, b ≤ 127 ∧ b ≠ 13 := by
  intro b hb
  have := natDecimal_digits n b hb
  omega

/-- Decimal text of an integer is CR-free ASCII. -/
theorem intDecimal_ascii (i : Int) : ∀ b ∈ intDecimal i, b ≤ 127 ∧ b ≠ 13 := by
  intro b hb
  rw [intDecimal] at hb
  by_cases hneg : i < 0
  · rw [if_pos hneg] at hb
    rcases List.mem_cons.mp hb with hb | hb
    · omega
    · exact natDecimal_ascii _ b hb
  · rw [if_neg hneg] at hb
    exact natDecimal_ascii _ b hb

/-- With enough fuel, a pure ASCII byte string passes the validator. -/
theorem utf8Go_ascii : ∀ (l : List Nat) (f : Nat), l.length ≤ f →
    (∀ b ∈ l, b ≤ 127) → utf8Go f l = true := by
  intro l
  induction l with
  | nil => intro f _ _; cases f <;> rfl
  | cons b t ih =>
    intro f hf h
    have hb : b ≤ 127 := h b (List.mem_cons_self _ _)
    cases f with
    | zero => simp at hf
    | succ f =>
      have ht := ih f (by simp at hf; omega) fun x hx => h x (List.mem_cons_of_mem _ hx)
      simp only [utf8Go]
      rw [if_pos hb]
      exact ht

/-- Pure ASCII byte strings are valid UTF-8. -/
theorem utf8_ascii (l : List Nat) (h : ∀ b ∈ l, b ≤ 127) : utf8Valid l = true :=
  utf8Go_ascii l l.length (Nat.le_refl _) h

/-- A no-CR/LF text has no CR byte. -/
theorem ne13_of_noCRLF {s : List Nat} (h : noCRLF s = true) : ∀ b ∈ s, b ≠ 13 := by
  intro b hb
  rw [noCRLF, List.all_eq_true] at h
  have := h b hb
  simp at this
  exact this.1

/-- One-step unfolding of the scanner on a nonempty suffix. -/
theorem scan_cons (buf : List Nat) (offset current : Nat) (b : Nat) (s1 : List Nat) :
    scan buf offset current (b :: s1) =
      if current + 1 ≥ buf.length then .err .CLRFNotFound
      else if b = 13 then
        match s1 with
        | [] => .crash
        | b2 :: _ =>
          if b2 = 10 then
            if utf8Valid ((buf.drop offset).take current) then
              .ok (current + 2, (buf.drop offset).take current)
            else .err .Utf8Error
          else scan buf offset (current + 1) s1
      else scan buf offset (current + 1) s1 := rfl

/-- The scanner finds the first CR LF: if the bytes from the scan position
are CR-free content followed by CR LF, it consumes through that CR LF and
validates the whole line from `offset`. -/
theorem scan_finds : ∀ (content buf : List Nat) (offset current : Nat) (rest : List Nat),
    buf.drop (offset + current) = content ++ 13 :: 10 :: rest →
    (∀ b ∈ content, b ≠ 13) →
    scan buf offset current (buf.drop (offset + current)) =
      if utf8Valid ((buf.drop offset).take (current + content.length)) then
        .ok (current + content.length + 2, (buf.drop offset).take (current + content.length))
      else .err .Utf8Error := by
  intro content
  induction content with
  | nil =>
    intro buf offset current rest hdrop _
    have hlen : buf.length = offset + current + rest.length + 2 := by
      have h1 := length_of_drop_cons hdrop
      simp at h1
      omega
    rw [hdrop]
    simp only [List.nil_append]
    rw [scan_cons, if_neg (show ¬(current + 1 ≥ buf.length) by omega)]
    simp
  | cons c ct ih =>
    intro buf offset current rest hdrop hno
    have hc : c ≠ 13 := hno c (List.mem_cons_self _ _)
    have hlen : buf.length = offset + current + ct.length + rest.length + 3 := by
      have h1 := length_of_drop_cons hdrop
      simp at h1
      omega
    rw [hdrop]
    simp only [List.cons_append]
    rw [scan_cons, if_neg (show ¬(current + 1 ≥ buf.length) by omega), if_neg hc]
    have hdrop' : buf.drop (offset + (current + 1)) = ct ++ 13 :: 10 :: rest :=
      drop_cons_step hdrop
    rw [← hdrop', ih buf offset (current + 1) rest hdrop'
      fun b hb => hno b (List.mem_cons_of_mem _ hb)]
    have harith : current + 1 + ct.length = current + (c :: ct).length := by
      simp [List.length_cons]
      omega
    rw [harith]

/-- read_line finds a CR-free line directly followed by CR LF. -/
theorem read_line_finds {buf : List Nat} {offset : Nat} {content rest : List Nat}
    (hdrop : buf.drop offset = content ++ 13 :: 10 :: rest)
    (hno : ∀ b ∈ content, b ≠ 13) (hutf : utf8Valid content = true) :
    read_line buf offset = .ok (content.length + 2, content) := by
  have h0 : buf.drop (offset + 0) = content ++ 13 :: 10 :: rest := hdrop
  have hmain := scan_finds content buf offset 0 rest h0 hno
  have htake : (buf.drop offset).take (0 + content.length) = content := by
    rw [Nat.zero_add, hdrop]
    exact take_pre _ _ rfl
  rw [htake, hutf] at hmain
  simp at hmain
  exact hmain

/-- The first byte after a known prefix. -/
theorem byteAt_pre (pre : List Nat) (b : Nat) (l : List Nat) {n : Nat} (h : pre.length = n) :
    byteAt (pre ++ b :: l) n = some b := by
  subst h
  show ((pre ++ b :: l).drop pre.length).head? = some b
  rw [List.drop_left]
  rfl

/-- parseF unfolds one step of fuel into the parse_offset body. -/
theorem parseF_succ (f : Nat) (buf : List Nat) (offset : Nat) :
    parseF (f + 1) buf offset = parseStep (parseF f) buf offset := rfl

/-- parse is parse_offset at offset 0, with fuel buf.length + 1. -/
theorem parse_eq (buf : List Nat) : parse buf = parseStep (parseF buf.length) buf 0 := rfl

/-- Dispatch of parse_offset on the SimpleString tag byte `+`. -/
theorem parseStep_tag43 (p : List Nat → Nat → PResult (Nat × RESP)) (buf : List Nat)
    (offset : Nat) (h : byteAt buf offset = some 43) :
    parseStep p buf offset =
      match read_line buf (offset + 1) with
      | .ok (n, line) => .ok (n + 1, .SimpleString line)
      | .err e => .err e
      | .crash => .crash := by
  rw [parseStep, h]
  exact rfl

/-- Dispatch of parse_offset on the Error tag byte `-`. -/
theorem parseStep_tag45 (p : List Nat → Nat → PResult (Nat × RESP)) (buf : List Nat)
    (offset : Nat) (h : byteAt buf offset = some 45) :
    parseStep p buf offset =
      match read_line buf (offset + 1) with
      | .ok (n, line) => .ok (n + 1, .Error line)
      | .err e => .err e
      | .crash => .crash := by
  rw [parseStep, h]
  exact rfl

/-- Dispatch of parse_offset on the Integer tag byte `:`. -/
theorem parseStep_tag58 (p : List Nat → Nat → PResult (Nat × RESP)) (buf : List Nat)
    (offset : Nat) (h : byteAt buf offset = some 58) :
    parseStep p buf offset =
      match read_line buf (offset + 1) with
      | .ok (n, line) =>
        match parseI64 line with
        | some i => .ok (n + 1, .Integer i)
        | none => .err .ParseIntError
      | .err e => .err e
      | .crash => .crash := by
  rw [parseStep, h]
  exact rfl

/-- Dispatch of parse_offset on the BulkString tag byte `$`. -/
theorem parseStep_tag36 (p : List Nat → Nat → PResult (Nat × RESP)) (buf : List Nat)
    (offset : Nat) (h : byteAt buf offset = some 36) :
    parseStep p buf offset =
      match read_line buf (offset + 1) with
      | .ok (n, line) =>
        match parseI64 line with
        | some len =>
          if len < 0 then .ok (n + 1, .NullBulkString)
          else if offset + n + 1 + len.toNat > buf.length then .crash
          else if utf8Valid ((buf.drop (offset + n + 1)).take len.toNat) then
            .ok (n + 1 + len.toNat + 2, .BulkString ((buf.drop (offset + n + 1)).take len.toNat))
          else .err .Utf8Error
        | none => .err .ParseIntError
      | .err e => .err e
      | .crash => .crash := by
  rw [parseStep, h]
  exact rfl

/-- Dispatch of parse_offset on the Array tag byte `*`. -/
theorem parseStep_tag42 (p : List Nat → Nat → PResult (Nat × RESP)) (buf : List Nat)
    (offset : Nat) (h : byteAt buf offset = some 42) :
    parseStep p buf offset =
      match read_line buf (offset + 1) with
      | .ok (n, line) =>
        match parseI64 line with
        | some len =>
          if len < 0 then .ok (n + 1, .NullArray)
          else
            match parseElemsGo p buf (offset + n + 1) len.toNat with
            | .ok (m, vs) => .ok (n + 1 + m, .Array vs)
            | .err e => .err e
            | .crash => .crash
        | none => .err .ParseIntError
      | .err e => .err e
      | .crash => .crash := by
  rw [parseStep, h]
  exact rfl

/-- Members of a valid list are valid. -/
theorem validList_mem : ∀ {l : List RESP}, validList l = true → ∀ r ∈ l, validV r = true := by
  intro l
  induction l with
  | nil => intro _ r hr; cases hr
  | cons v t ih =>
    intro h r hr
    rw [show validList (v :: t) = (validV v && validList t) from rfl] at h
    simp at h
    rcases List.mem_cons.mp hr with rfl | hr
    · exact h.1
    · exact ih h.2 r hr

/-- A member's depth bounds the list depth. -/
theorem depthList_mem : ∀ {l : List RESP} {r : RESP}, r ∈ l → depthV r ≤ depthList l := by
  intro l
  induction l with
  | nil => intro r hr; cases hr
  | cons v t ih =>
    intro r hr
    rw [show depthList (v :: t) = max (depthV v) (depthList t) from rfl]
    rcases List.mem_cons.mp hr with rfl | hr
    · exact le_max_left _ _
    · exact le_trans (ih hr) (le_max_right _ _)

/-- Every value has positive depth. -/
theorem depthV_pos (v : RESP) : 1 ≤ depthV v := by cases v <;> simp [depthV]

/-- Length of the canonical SimpleString encoding. -/
theorem encSimpleLen (s : List Nat) : (encValue (.SimpleString s)).length = s.length + 3 := by
  rw [show encValue (.SimpleString s) = 43 :: (s ++ [13, 10]) from rfl]
  simp

/-- Length of the canonical Error encoding. -/
theorem encErrorLen (s : List Nat) : (encValue (.Error s)).length = s.length + 3 := by
  rw [show encValue (.Error s) = 45 :: (s ++ [13, 10]) from rfl]
  simp

/-- Length of the canonical Integer encoding. -/
theorem encIntLen (i : Int) : (encValue (.Integer i)).length = (intDecimal i).length + 3 := by
  rw [show encValue (.Integer i) = 58 :: (intDecimal i ++ [13, 10]) from rfl]
  simp

/-- Length of the canonical BulkString encoding. -/
theorem encBulkLen (s : List Nat) :
    (encValue (.BulkString s)).length = (natDecimal s.length).length + s.length + 5 := by
  rw [show encValue (.BulkString s)
      = 36 :: (natDecimal s.length ++ [13, 10] ++ s ++ [13, 10]) from rfl]
  simp
  omega

/-- Length of the canonical Array encoding. -/
theorem encArrLen (l : List RESP) :
    (encValue (.Array l)).length = (natDecimal l.length).length + (encList l).length + 3 := by
  rw [show encValue (.Array l) = 42 :: (natDecimal l.length ++ [13, 10] ++ encList l) from rfl]
  simp
  omega

/-- The element loop reparses a concatenation of encodings, given that the
recursive parser reparses each element's encoding at any position. -/
theorem parse_encList_aux : ∀ (l : List RESP) (f : Nat) (pre post : List Nat),
    (∀ r ∈ l, ∀ pre' post' : List Nat,
        parseF f (pre' ++ encValue r ++ post') pre'.length = .ok ((encValue r).length, r)) →
    parseElemsGo (parseF f) (pre ++ encList l ++ post) pre.length l.length
      = .ok ((encList l).length, l) := by
  intro l
  induction l with
  | nil => intro f pre post _; exact rfl
  | cons r t ih =>
    intro f pre post H
    have hr := H r (List.mem_cons_self _ _) pre (encList t ++ post)
    have hbuf : pre ++ encList (r :: t) ++ post = pre ++ encValue r ++ (encList t ++ post) := by
      rw [show encList (r :: t) = encValue r ++ encList t from rfl]
      simp
    rw [hbuf]
    rw [show (r :: t).length = t.length + 1 from rfl]
    rw [show parseElemsGo (parseF f) (pre ++ encValue r ++ (encList t ++ post)) pre.length
          (t.length + 1)
        = match parseF f (pre ++ encValue r ++ (encList t ++ post)) pre.length with
          | .ok (l1, v) =>
            match parseElemsGo (parseF f) (pre ++ encValue r ++ (encList t ++ post))
                (pre.length + l1) t.length with
            | .ok (m, vs) => .ok (l1 + m, v :: vs)
            | .err e => .err e
            | .crash => .crash
          | .err e => .err e
          | .crash => .crash from rfl]
    rw [hr]
    simp only []
    have hih := ih f (pre ++ encValue r) post fun r' h' => H r' (List.mem_cons_of_mem _ h')
    rw [show (pre ++ encValue r) ++ encList t ++ post
        = pre ++ encValue r ++ (encList t ++ post) by simp] at hih
    rw [show (pre ++ encValue r).length = pre.length + (encValue r).length by simp] at hih
    rw [hih]
    simp only []
    rw [show encList (r :: t) = encValue r ++ encList t from rfl]
    simp

/-- Parsing a canonical encoding placed at any position in a larger buffer
succeeds, consumes exactly the encoding, and yields the encoded value
(given fuel at least the value's nesting depth). -/
theorem parse_enc : ∀ (v : RESP), validV v = true →
    ∀ (f : Nat) (pre post : List Nat), depthV v ≤ f →
      parseF f (pre ++ encValue v ++ post) pre.length = .ok ((encValue v).length, v) := by
  refine respStrongInd
    (fun v => validV v = true → ∀ (f : Nat) (pre post : List Nat), depthV v ≤ f →
      parseF f (pre ++ encValue v ++ post) pre.length = .ok ((encValue v).length, v)) ?_
  intro v ih hval f pre post hdepth
  have hd1 : 1 ≤ depthV v := depthV_pos v
  cases f with
  | zero => omega
  | succ f =>
    rw [parseF_succ]
    cases v with
    | SimpleString s =>
      rw [show validV (.SimpleString s) = (utf8Valid s && noCRLF s) from rfl] at hval
      simp only [Bool.and_eq_true] at hval
      have hshape : pre ++ encValue (.SimpleString s) ++ post
          = pre ++ 43 :: (s ++ 13 :: 10 :: post) := by
        rw [show encValue (.SimpleString s) = 43 :: (s ++ [13, 10]) from rfl]
        simp
      rw [hshape]
      have hbyte : byteAt (pre ++ 43 :: (s ++ 13 :: 10 :: post)) pre.length = some 43 :=
        byteAt_pre _ _ _ rfl
      rw [parseStep_tag43 _ _ _ hbyte]
      have hdrop : (pre ++ 43 :: (s ++ 13 :: 10 :: post)).drop (pre.length + 1)
          = s ++ 13 :: 10 :: post := by
        have h1 := drop_pre (pre ++ [43]) (s ++ 13 :: 10 :: post)
          (n := pre.length + 1) (by simp)
        simpa using h1
      rw [read_line_finds hdrop (ne13_of_noCRLF hval.2) hval.1]
      show PResult.ok (s.length + 2 + 1, RESP.SimpleString s) = _
      rw [encSimpleLen]
    | Error s =>
      rw [show validV (.Error s) = (utf8Valid s && noCRLF s) from rfl] at hval
      simp only [Bool.and_eq_true] at hval
      have hshape : pre ++ encValue (.Error s) ++ post
          = pre ++ 45 :: (s ++ 13 :: 10 :: post) := by
        rw [show encValue (.Error s) = 45 :: (s ++ [13, 10]) from rfl]
        simp
      rw [hshape]
      have hbyte : byteAt (pre ++ 45 :: (s ++ 13 :: 10 :: post)) pre.length = some 45 :=
        byteAt_pre _ _ _ rfl
      rw [parseStep_tag45 _ _ _ hbyte]
      have hdrop : (pre ++ 45 :: (s ++ 13 :: 10 :: post)).drop (pre.length + 1)
          = s ++ 13 :: 10 :: post := by
        have h1 := drop_pre (pre ++ [45]) (s ++ 13 :: 10 :: post)
          (n := pre.length + 1) (by simp)
        simpa using h1
      rw [read_line_finds hdrop (ne13_of_noCRLF hval.2) hval.1]
      show PResult.ok (s.length + 2 + 1, RESP.Error s) = _
      rw [encErrorLen]
    | Integer i =>
      rw [show validV (.Integer i) = (decide (min64 ≤ i) && decide (i ≤ max64)) from rfl] at hval
      simp only [Bool.and_eq_true, decide_eq_true_eq] at hval
      have hshape : pre ++ encValue (.Integer i) ++ post
          = pre ++ 58 :: (intDecimal i ++ 13 :: 10 :: post) := by
        rw [show encValue (.Integer i) = 58 :: (intDecimal i ++ [13, 10]) from rfl]
        simp
      rw [hshape]
      have hbyte : byteAt (pre ++ 58 :: (intDecimal i ++ 13 :: 10 :: post)) pre.length
          = some 58 := byteAt_pre _ _ _ rfl
      rw [parseStep_tag58 _ _ _ hbyte]
      have hdrop : (pre ++ 58 :: (intDecimal i ++ 13 :: 10 :: post)).drop (pre.length + 1)
          = intDecimal i ++ 13 :: 10 :: post := by
        have h1 := drop_pre (pre ++ [58]) (intDecimal i ++ 13 :: 10 :: post)
          (n := pre.length + 1) (by simp)
        simpa using h1
      have hascii := intDecimal_ascii i
      rw [read_line_finds hdrop (fun b hb => (hascii b hb).2)
        (utf8_ascii _ fun b hb => (hascii b hb).1)]
      simp only []
      rw [parseI64_intDecimal i hval.1 hval.2]
      show PResult.ok ((intDecimal i).length + 2 + 1, RESP.Integer i) = _
      rw [encIntLen]
    | NullBulkString =>
      have hshape : pre ++ encValue .NullBulkString ++ post
          = pre ++ 36 :: ([45, 49] ++ 13 :: 10 :: post) := by
        rw [show encValue .NullBulkString = [36, 45, 49, 13, 10] from rfl]
        simp
      rw [hshape]
      have hbyte : byteAt (pre ++ 36 :: ([45, 49] ++ 13 :: 10 :: post)) pre.length
          = some 36 := byteAt_pre _ _ _ rfl
      rw [parseStep_tag36 _ _ _ hbyte]
      have hdrop : (pre ++ 36 :: ([45, 49] ++ 13 :: 10 :: post)).drop (pre.length + 1)
          = [45, 49] ++ 13 :: 10 :: post := by
        have h1 := drop_pre (pre ++ [36]) ([45, 49] ++ 13 :: 10 :: post)
          (n := pre.length + 1) (by simp)
        simpa using h1
      rw [read_line_finds hdrop (by decide) (by decide)]
      exact rfl
    | NullArray =>
      have hshape : pre ++ encValue .NullArray ++ post
          = pre ++ 42 :: ([45, 49] ++ 13 :: 10 :: post) := by
        rw [show encValue .NullArray = [42, 45, 49, 13, 10] from rfl]
        simp
      rw [hshape]
      have hbyte : byteAt (pre ++ 42 :: ([45, 49] ++ 13 :: 10 :: post)) pre.length
          = some 42 := byteAt_pre _ _ _ rfl
      rw [parseStep_tag42 _ _ _ hbyte]
      have hdrop : (pre ++ 42 :: ([45, 49] ++ 13 :: 10 :: post)).drop (pre.length + 1)
          = [45, 49] ++ 13 :: 10 :: post := by
        have h1 := drop_pre (pre ++ [42]) ([45, 49] ++ 13 :: 10 :: post)
          (n := pre.length + 1) (by simp)
        simpa using h1
      rw [read_line_finds hdrop (by decide) (by decide)]
      exact rfl
    | BulkString s =>
      rw [show validV (.BulkString s)
          = (utf8Valid s && decide (s.length < 2 ^ 63)) from rfl] at hval
      simp only [Bool.and_eq_true, decide_eq_true_eq] at hval
      have hshape : pre ++ encValue (.BulkString s) ++ post
          = pre ++ 36 :: (natDecimal s.length ++ 13 :: 10 :: (s ++ 13 :: 10 :: post)) := by
        rw [show encValue (.BulkString s)
            = 36 :: (natDecimal s.length ++ [13, 10] ++ s ++ [13, 10]) from rfl]
        simp
      rw [hshape]
      have hbyte : byteAt
          (pre ++ 36 :: (natDecimal s.length ++ 13 :: 10 :: (s ++ 13 :: 10 :: post)))
          pre.length = some 36 := byteAt_pre _ _ _ rfl
      rw [parseStep_tag36 _ _ _ hbyte]
      have hdrop : (pre ++ 36 :: (natDecimal s.length ++ 13 :: 10 :: (s ++ 13 :: 10 :: post))).drop
          (pre.length + 1) = natDecimal s.length ++ 13 :: 10 :: (s ++ 13 :: 10 :: post) := by
        have h1 := drop_pre (pre ++ [36])
          (natDecimal s.length ++ 13 :: 10 :: (s ++ 13 :: 10 :: post))
          (n := pre.length + 1) (by simp)
        simpa using h1
      have hasc := natDecimal_ascii s.length
      rw [read_line_finds hdrop (fun b hb => (hasc b hb).2)
        (utf8_ascii _ fun b hb => (hasc b hb).1)]
      simp only []
      rw [parseI64_natDecimal s.length hval.2]
      simp only []
      rw [if_neg (show ¬((s.length : Int) < 0) by omega)]
      simp only [Int.toNat_natCast]
      have hbound : ¬ (pre.length + ((natDecimal s.length).length + 2) + 1 + s.length
          > (pre ++ 36 :: (natDecimal s.length ++ 13 :: 10 :: (s ++ 13 :: 10 :: post))).length) := by
        simp
        omega
      rw [if_neg hbound]
      have hpayload : ((pre ++ 36 :: (natDecimal s.length ++ 13 :: 10 ::
          (s ++ 13 :: 10 :: post))).drop
          (pre.length + ((natDecimal s.length).length + 2) + 1)).take s.length = s := by
        have h1 := drop_pre (pre ++ 36 :: (natDecimal s.length ++ [13, 10]))
          (s ++ 13 :: 10 :: post)
          (n := pre.length + ((natDecimal s.length).length + 2) + 1) (by simp; omega)
        rw [show (pre ++ 36 :: (natDecimal s.length ++ [13, 10])) ++ (s ++ 13 :: 10 :: post)
            = pre ++ 36 :: (natDecimal s.length ++ 13 :: 10 :: (s ++ 13 :: 10 :: post))
            by simp] at h1
        rw [h1, take_pre _ _ rfl]
      rw [hpayload, if_pos hval.1]
      simp only [PResult.ok.injEq, Prod.mk.injEq]
      refine ⟨?_, trivial⟩
      rw [encBulkLen]
      omega
    | Array l =>
      rw [show validV (.Array l) = (decide (l.length < 2 ^ 63) && validList l) from rfl] at hval
      simp only [Bool.and_eq_true, decide_eq_true_eq] at hval
      have hdl : depthList l ≤ f := by
        rw [show depthV (.Array l) = depthList l + 1 from rfl] at hdepth
        omega
      have hshape : pre ++ encValue (.Array l) ++ post
          = pre ++ 42 :: (natDecimal l.length ++ 13 :: 10 :: (encList l ++ post)) := by
        rw [show encValue (.Array l)
            = 42 :: (natDecimal l.length ++ [13, 10] ++ encList l) from rfl]
        simp
      rw [hshape]
      have hbyte : byteAt
          (pre ++ 42 :: (natDecimal l.length ++ 13 :: 10 :: (encList l ++ post)))
          pre.length = some 42 := byteAt_pre _ _ _ rfl
      rw [parseStep_tag42 _ _ _ hbyte]
      have hdrop : (pre ++ 42 :: (natDecimal l.length ++ 13 :: 10 ::
          (encList l ++ post))).drop (pre.length + 1)
          = natDecimal l.length ++ 13 :: 10 :: (encList l ++ post) := by
        have h1 := drop_pre (pre ++ [42])
          (natDecimal l.length ++ 13 :: 10 :: (encList l ++ post))
          (n := pre.length + 1) (by simp)
        simpa using h1
      have hasc := natDecimal_ascii l.length
      rw [read_line_finds hdrop (fun b hb => (hasc b hb).2)
        (utf8_ascii _ fun b hb => (hasc b hb).1)]
      simp only []
      rw [parseI64_natDecimal l.length hval.1]
      simp only []
      rw [if_neg (show ¬((l.length : Int) < 0) by omega)]
      simp only [Int.toNat_natCast]
      have helems := parse_encList_aux l f (pre ++ 42 :: (natDecimal l.length ++ [13, 10])) post
        fun r hr pre' post' =>
          ih r (sizeOf_mem_lt_array hr) (validList_mem hval.2 r hr) f pre' post'
            (le_trans (depthList_mem hr) hdl)
      rw [show (pre ++ 42 :: (natDecimal l.length ++ [13, 10])) ++ encList l ++ post
          = pre ++ 42 :: (natDecimal l.length ++ 13 :: 10 :: (encList l ++ post))
          by simp] at helems
      have hlen2 : (pre ++ 42 :: (natDecimal l.length ++ [13, 10])).length
          = pre.length + ((natDecimal l.length).length + 2) + 1 := by
        simp only [List.length_append, List.length_cons, List.length_nil]
        omega
      rw [hlen2] at helems
      rw [helems]
      simp only [PResult.ok.injEq, Prod.mk.injEq]
      refine ⟨?_, trivial⟩
      rw [encArrLen]
      omega

/-- The nesting depth is at most the encoded length over a list. -/
theorem depthList_le_encList : ∀ l : List RESP,
    (∀ r ∈ l, depthV r ≤ (encValue r).length) → depthList l ≤ (encList l).length := by
  intro l
  induction l with
  | nil => intro _; exact Nat.le_refl 0
  | cons v t ih =>
    intro h
    rw [show depthList (v :: t) = max (depthV v) (depthList t) from rfl,
      show encList (v :: t) = encValue v ++ encList t from rfl, List.length_append]
    exact max_le (le_trans (h v (List.mem_cons_self _ _)) (Nat.le_add_right _ _))
      (le_trans (ih fun r hr => h r (List.mem_cons_of_mem _ hr)) (Nat.le_add_left _ _))

/-- The nesting depth of a value is at most its encoded length (so the fuel
used by parse always suffices to reparse an encoding). -/
theorem depth_le_encLen : ∀ v : RESP, depthV v ≤ (encValue v).length := by
  refine respStrongInd (fun v => depthV v ≤ (encValue v).length) ?_
  intro v ih
  cases v with
  | SimpleString s => rw [show depthV (.SimpleString s) = 1 from rfl, encSimpleLen]; omega
  | Error s => rw [show depthV (.Error s) = 1 from rfl, encErrorLen]; omega
  | Integer i => rw [show depthV (.Integer i) = 1 from rfl, encIntLen]; omega
  | BulkString s => rw [show depthV (.BulkString s) = 1 from rfl, encBulkLen]; omega
  | NullBulkString => exact Nat.le_of_lt (by decide)
  | NullArray => exact Nat.le_of_lt (by decide)
  | Array l =>
    rw [show depthV (.Array l) = depthList l + 1 from rfl, encArrLen]
    have := depthList_le_encList l fun r hr => ih r (sizeOf_mem_lt_array hr)
    omega


/-- A bounds-respecting write lands in the middle section of the buffer. -/
theorem write_bytes_fits (pre mid post bytes : List Nat) (h : bytes.length ≤ mid.length) :
    write_bytes (pre ++ (mid ++ post)) pre.length bytes
      = (pre ++ (bytes ++ (mid.drop bytes.length ++ post)), .ok bytes.length) := by
  rw [write_bytes]
  rw [if_neg (show ¬(pre.length + bytes.length > (pre ++ (mid ++ post)).length) by
    simp [List.length_append]
    omega)]
  have htake : (pre ++ (mid ++ post)).take pre.length = pre := take_pre _ _ rfl
  have hdrop : (pre ++ (mid ++ post)).drop (pre.length + bytes.length)
      = mid.drop bytes.length ++ post := by
    conv_lhs => rw [← List.take_append_drop bytes.length mid]
    rw [show pre ++ ((mid.take bytes.length ++ mid.drop bytes.length) ++ post)
        = (pre ++ mid.take bytes.length) ++ (mid.drop bytes.length ++ post) by
      simp only [List.append_assoc]]
    exact drop_pre _ _ (by simp [List.length_take]; omega)
  rw [htake, hdrop]
  simp

/-- A bounds-respecting write_line writes tag, payload and CR LF in place. -/
theorem write_line_fits (pre mid post : List Nat) (kind : Nat) (bytes : List Nat)
    (h : mid.length = bytes.length + 3) :
    write_line (pre ++ (mid ++ post)) pre.length kind bytes
      = (pre ++ (kind :: (bytes ++ 13 :: 10 :: post)), .ok (1 + bytes.length + 2)) := by
  have h1 : write_bytes (pre ++ (mid ++ post)) pre.length [kind]
      = (pre ++ ([kind] ++ (mid.drop 1 ++ post)), .ok 1) :=
    write_bytes_fits pre mid post [kind] (by simp; omega)
  rw [write_line, h1]
  simp only []
  rw [show pre ++ ([kind] ++ (mid.drop 1 ++ post))
      = (pre ++ [kind]) ++ (mid.drop 1 ++ post) by simp only [List.append_assoc]]
  rw [show pre.length + 1 = (pre ++ [kind]).length by
    simp only [List.length_append, List.length_cons, List.length_nil]]
  have h2 : write_bytes ((pre ++ [kind]) ++ (mid.drop 1 ++ post)) (pre ++ [kind]).length bytes
      = ((pre ++ [kind]) ++ (bytes ++ ((mid.drop 1).drop bytes.length ++ post)),
         .ok bytes.length) :=
    write_bytes_fits (pre ++ [kind]) (mid.drop 1) post bytes
      (by simp [List.length_drop]; omega)
  rw [h2]
  simp only []
  rw [show (pre ++ [kind]) ++ (bytes ++ ((mid.drop 1).drop bytes.length ++ post))
      = ((pre ++ [kind]) ++ bytes) ++ ((mid.drop 1).drop bytes.length ++ post) by
    simp only [List.append_assoc]]
  rw [show (pre ++ [kind]).length + bytes.length = ((pre ++ [kind]) ++ bytes).length by
    simp only [List.length_append, List.length_cons, List.length_nil]]
  have h3 : write_bytes (((pre ++ [kind]) ++ bytes)
        ++ ((mid.drop 1).drop bytes.length ++ post))
        ((pre ++ [kind]) ++ bytes).length [13, 10]
      = (((pre ++ [kind]) ++ bytes)
          ++ ([13, 10] ++ (((mid.drop 1).drop bytes.length).drop 2 ++ post)), .ok 2) :=
    write_bytes_fits ((pre ++ [kind]) ++ bytes) ((mid.drop 1).drop bytes.length) post [13, 10]
      (by simp [List.length_drop]; omega)
  rw [h3]
  simp only []
  rw [List.drop_eq_nil_of_le (show ((mid.drop 1).drop bytes.length).length ≤ 2 by
    simp [List.length_drop]; omega)]
  simp

/-- The element loop of the encoder writes the concatenated encodings, given
that the encoder writes each element's encoding at any position. -/
theorem dumpElems_fits : ∀ (l : List RESP) (pre mid post : List Nat),
    mid.length = (encList l).length →
    (∀ r ∈ l, ∀ pre' mid' post' : List Nat, mid'.length = (encValue r).length →
        dump_offset r (pre' ++ (mid' ++ post')) pre'.length
          = (pre' ++ (encValue r ++ post'), .ok (encValue r).length)) →
    dumpElems l (pre ++ (mid ++ post)) pre.length
      = (pre ++ (encList l ++ post), .ok (encList l).length) := by
  intro l
  induction l with
  | nil =>
    intro pre mid post hmid _
    have : mid = [] := List.eq_nil_of_length_eq_zero hmid
    subst this
    exact rfl
  | cons r t ih =>
    intro pre mid post hmid H
    have hmlen : mid.length = (encValue r).length + (encList t).length := by
      rw [hmid, show encList (r :: t) = encValue r ++ encList t from rfl, List.length_append]
    have hsplit : pre ++ (mid ++ post)
        = pre ++ (mid.take (encValue r).length ++ (mid.drop (encValue r).length ++ post)) := by
      rw [show pre ++ (mid.take (encValue r).length ++ (mid.drop (encValue r).length ++ post))
          = pre ++ ((mid.take (encValue r).length ++ mid.drop (encValue r).length) ++ post)
          from by simp only [List.append_assoc], List.take_append_drop]
    have hr := H r (List.mem_cons_self _ _) pre (mid.take (encValue r).length)
      (mid.drop (encValue r).length ++ post) (by simp [List.length_take]; omega)
    rw [show dumpElems (r :: t) (pre ++ (mid ++ post)) pre.length
        = (match dump_offset r (pre ++ (mid ++ post)) pre.length with
          | (buf1, Except.error e) => (buf1, Except.error e)
          | (buf1, Except.ok m) =>
            match dumpElems t buf1 (pre.length + m) with
            | (buf2, Except.error e) => (buf2, Except.error e)
            | (buf2, Except.ok k) => (buf2, Except.ok (m + k)))
          from rfl]
    rw [hsplit, hr]
    simp only []
    have hih := ih (pre ++ encValue r) (mid.drop (encValue r).length) post
      (by simp [List.length_drop]; omega)
      fun r' h' => H r' (List.mem_cons_of_mem _ h')
    rw [show (pre ++ encValue r) ++ (mid.drop (encValue r).length ++ post)
        = pre ++ (encValue r ++ (mid.drop (encValue r).length ++ post)) by
      simp only [List.append_assoc]] at hih
    rw [show (pre ++ encValue r).length = pre.length + (encValue r).length by simp] at hih
    rw [hih]
    simp only []
    simp only [Prod.mk.injEq]
    constructor
    · rw [show encList (r :: t) = encValue r ++ encList t from rfl]
      simp
    · rw [show encList (r :: t) = encValue r ++ encList t from rfl]
      simp only [Except.ok.injEq, List.length_append]

/-- The encoder writes exactly the canonical encoding into the middle
section of a buffer decomposed around it, and reports its length. -/
theorem dump_spec : ∀ (v : RESP) (pre mid post : List Nat),
    mid.length = (encValue v).length →
    dump_offset v (pre ++ (mid ++ post)) pre.length
      = (pre ++ (encValue v ++ post), .ok (encValue v).length) := by
  refine respStrongInd
    (fun v => ∀ (pre mid post : List Nat), mid.length = (encValue v).length →
      dump_offset v (pre ++ (mid ++ post)) pre.length
        = (pre ++ (encValue v ++ post), .ok (encValue v).length)) ?_
  intro v ih pre mid post hmid
  cases v with
  | SimpleString s =>
    show write_line (pre ++ (mid ++ post)) pre.length 43 s = _
    rw [write_line_fits pre mid post 43 s (by rw [hmid, encSimpleLen])]
    simp only [Prod.mk.injEq]
    constructor
    · rw [show encValue (.SimpleString s) = 43 :: (s ++ [13, 10]) from rfl]
      simp
    · rw [encSimpleLen]
      simp only [Except.ok.injEq]
      omega
  | Error s =>
    show write_line (pre ++ (mid ++ post)) pre.length 45 s = _
    rw [write_line_fits pre mid post 45 s (by rw [hmid, encErrorLen])]
    simp only [Prod.mk.injEq]
    constructor
    · rw [show encValue (.Error s) = 45 :: (s ++ [13, 10]) from rfl]
      simp
    · rw [encErrorLen]
      simp only [Except.ok.injEq]
      omega
  | Integer i =>
    show write_line (pre ++ (mid ++ post)) pre.length 58 (intDecimal i) = _
    rw [write_line_fits pre mid post 58 (intDecimal i) (by rw [hmid, encIntLen])]
    simp only [Prod.mk.injEq]
    constructor
    · rw [show encValue (.Integer i) = 58 :: (intDecimal i ++ [13, 10]) from rfl]
      simp
    · rw [encIntLen]
      simp only [Except.ok.injEq]
      omega
  | NullBulkString =>
    show write_bytes (pre ++ (mid ++ post)) pre.length [36, 45, 49, 13, 10] = _
    have h1 : write_bytes (pre ++ (mid ++ post)) pre.length [36, 45, 49, 13, 10]
        = (pre ++ ([36, 45, 49, 13, 10] ++ (mid.drop 5 ++ post)), .ok 5) :=
      write_bytes_fits pre mid post [36, 45, 49, 13, 10] (by rw [hmid]; exact Nat.le_refl _)
    rw [h1, List.drop_eq_nil_of_le (show mid.length ≤ 5 from le_of_eq hmid)]
    exact rfl
  | NullArray =>
    show write_bytes (pre ++ (mid ++ post)) pre.length [42, 45, 49, 13, 10] = _
    have h1 : write_bytes (pre ++ (mid ++ post)) pre.length [42, 45, 49, 13, 10]
        = (pre ++ ([42, 45, 49, 13, 10] ++ (mid.drop 5 ++ post)), .ok 5) :=
      write_bytes_fits pre mid post [42, 45, 49, 13, 10] (by rw [hmid]; exact Nat.le_refl _)
    rw [h1, List.drop_eq_nil_of_le (show mid.length ≤ 5 from le_of_eq hmid)]
    exact rfl
  | BulkString s =>
    have hmlen : mid.length = (natDecimal s.length).length + s.length + 5 := by
      rw [hmid, encBulkLen]
    show (match write_line (pre ++ (mid ++ post)) pre.length 36 (natDecimal s.length) with
      | (buf1, Except.error e) => (buf1, Except.error e)
      | (buf1, Except.ok n) =>
        match write_bytes buf1 (pre.length + n) s with
        | (buf2, Except.error e) => (buf2, Except.error e)
        | (buf2, Except.ok m) =>
          match write_bytes buf2 (pre.length + n + m) [13, 10] with
          | (buf3, Except.error e) => (buf3, Except.error e)
          | (buf3, Except.ok k) => (buf3, Except.ok (n + m + k))) = _
    rw [show pre ++ (mid ++ post)
        = pre ++ (mid.take ((natDecimal s.length).length + 3)
            ++ (mid.drop ((natDecimal s.length).length + 3) ++ post)) from by
      rw [show pre ++ (mid.take ((natDecimal s.length).length + 3)
          ++ (mid.drop ((natDecimal s.length).length + 3) ++ post))
          = pre ++ ((mid.take ((natDecimal s.length).length + 3)
            ++ mid.drop ((natDecimal s.length).length + 3)) ++ post)
          from by simp only [List.append_assoc], List.take_append_drop]]
    rw [write_line_fits pre (mid.take ((natDecimal s.length).length + 3))
      (mid.drop ((natDecimal s.length).length + 3) ++ post) 36 (natDecimal s.length)
      (by simp [List.length_take]; omega)]
    simp only []
    rw [show pre ++ (36 :: (natDecimal s.length ++ 13 :: 10 ::
          (mid.drop ((natDecimal s.length).length + 3) ++ post)))
        = (pre ++ (36 :: (natDecimal s.length ++ [13, 10])))
          ++ (mid.drop ((natDecimal s.length).length + 3) ++ post) from by
      simp only [List.append_assoc, List.cons_append, List.nil_append]]
    rw [show pre.length + (1 + (natDecimal s.length).length + 2)
        = (pre ++ (36 :: (natDecimal s.length ++ [13, 10]))).length from by
      simp only [List.length_append, List.length_cons, List.length_nil]
      omega]
    rw [write_bytes_fits (pre ++ (36 :: (natDecimal s.length ++ [13, 10])))
      (mid.drop ((natDecimal s.length).length + 3)) post s
      (by simp [List.length_drop]; omega)]
    simp only []
    rw [show (pre ++ (36 :: (natDecimal s.length ++ [13, 10])))
          ++ (s ++ ((mid.drop ((natDecimal s.length).length + 3)).drop s.length ++ post))
        = ((pre ++ (36 :: (natDecimal s.length ++ [13, 10]))) ++ s)
          ++ ((mid.drop ((natDecimal s.length).length + 3)).drop s.length ++ post) from by
      simp only [List.append_assoc]]
    have hlen36 : (pre ++ (36 :: (natDecimal s.length ++ [13, 10]))).length + s.length
        = ((pre ++ (36 :: (natDecimal s.length ++ [13, 10]))) ++ s).length := by
      simp only [List.length_append, List.length_cons, List.length_nil]
    rw [hlen36]
    rw [write_bytes_fits ((pre ++ (36 :: (natDecimal s.length ++ [13, 10]))) ++ s)
      ((mid.drop ((natDecimal s.length).length + 3)).drop s.length) post [13, 10]
      (by simp [List.length_drop]; omega)]
    simp only []
    rw [List.drop_eq_nil_of_le
      (show ((mid.drop ((natDecimal s.length).length + 3)).drop s.length).length
          ≤ [13, 10].length by
        simp [List.length_drop]; omega)]
    simp only [Prod.mk.injEq]
    constructor
    · rw [show encValue (.BulkString s)
          = 36 :: (natDecimal s.length ++ [13, 10] ++ s ++ [13, 10]) from rfl]
      simp
    · rw [encBulkLen]
      simp only [Except.ok.injEq, List.length_cons, List.length_nil]
      omega
  | Array l =>
    have hmlen : mid.length = (natDecimal l.length).length + (encList l).length + 3 := by
      rw [hmid, encArrLen]
    show (match write_line (pre ++ (mid ++ post)) pre.length 42 (natDecimal l.length) with
      | (buf1, Except.error e) => (buf1, Except.error e)
      | (buf1, Except.ok n) =>
        match dumpElems l buf1 (pre.length + n) with
        | (buf2, Except.error e) => (buf2, Except.error e)
        | (buf2, Except.ok m) => (buf2, Except.ok (n + m))) = _
    rw [show pre ++ (mid ++ post)
        = pre ++ (mid.take ((natDecimal l.length).length + 3)
            ++ (mid.drop ((natDecimal l.length).length + 3) ++ post)) from by
      rw [show pre ++ (mid.take ((natDecimal l.length).length + 3)
          ++ (mid.drop ((natDecimal l.length).length + 3) ++ post))
          = pre ++ ((mid.take ((natDecimal l.length).length + 3)
            ++ mid.drop ((natDecimal l.length).length + 3)) ++ post)
          from by simp only [List.append_assoc], List.take_append_drop]]
    rw [write_line_fits pre (mid.take ((natDecimal l.length).length + 3))
      (mid.drop ((natDecimal l.length).length + 3) ++ post) 42 (natDecimal l.length)
      (by simp [List.length_take]; omega)]
    simp only []
    have helems := dumpElems_fits l (pre ++ (42 :: (natDecimal l.length ++ [13, 10])))
      (mid.drop ((natDecimal l.length).length + 3)) post
      (by simp [List.length_drop]; omega)
      fun r hr pre' mid' post' hm' => ih r (sizeOf_mem_lt_array hr) pre' mid' post' hm'
    rw [show (pre ++ (42 :: (natDecimal l.length ++ [13, 10])))
          ++ (mid.drop ((natDecimal l.length).length + 3) ++ post)
        = pre ++ (42 :: (natDecimal l.length ++ 13 :: 10 ::
            (mid.drop ((natDecimal l.length).length + 3) ++ post))) from by
      simp only [List.append_assoc, List.cons_append, List.nil_append]] at helems
    have hlen42 : (pre ++ (42 :: (natDecimal l.length ++ [13, 10]))).length
        = pre.length + (1 + (natDecimal l.length).length + 2) := by
      simp only [List.length_append, List.length_cons, List.length_nil]
      omega
    rw [hlen42] at helems
    rw [helems]
    simp only []
    simp only [Prod.mk.injEq]
    constructor
    · rw [show encValue (.Array l)
          = 42 :: (natDecimal l.length ++ [13, 10] ++ encList l) from rfl]
      simp
    · rw [encArrLen]
      simp only [Except.ok.injEq]
      omega

/-- Successful bounds-checked write, general buffer form. -/
theorem write_bytes_ok (buf : List Nat) (offset : Nat) (bytes : List Nat)
    (h : offset + bytes.length ≤ buf.length) :
    write_bytes buf offset bytes
      = (buf.take offset ++ bytes ++ buf.drop (offset + bytes.length), .ok bytes.length) := by
  rw [write_bytes, if_neg (by omega)]

/-- Failing bounds-checked write: buffer untouched, BufTooSmall. -/
theorem write_bytes_err (buf : List Nat) (offset : Nat) (bytes : List Nat)
    (h : buf.length < offset + bytes.length) :
    write_bytes buf offset bytes = (buf, .error .BufTooSmall) := by
  rw [write_bytes, if_pos (by omega)]

/-- write_bytes never changes the buffer length. -/
theorem write_bytes_len (buf : List Nat) (offset : Nat) (bytes : List Nat) :
    (write_bytes buf offset bytes).1.length = buf.length := by
  rw [write_bytes]
  by_cases hc : offset + bytes.length > buf.length
  · rw [if_pos hc]
  · rw [if_neg hc]
    show (buf.take offset ++ bytes ++ buf.drop (offset + bytes.length)).length = buf.length
    simp [List.length_take, List.length_drop]
    omega

/-- Successful write_line, general buffer form. -/
theorem write_line_ok (buf : List Nat) (offset kind : Nat) (bytes : List Nat)
    (h : offset + (bytes.length + 3) ≤ buf.length) :
    write_line buf offset kind bytes
      = (buf.take offset
          ++ (kind :: (bytes ++ 13 :: 10 :: buf.drop (offset + (bytes.length + 3)))),
         .ok (1 + bytes.length + 2)) := by
  have hb : buf = buf.take offset ++ ((buf.drop offset).take (bytes.length + 3)
      ++ (buf.drop offset).drop (bytes.length + 3)) := by
    rw [List.take_append_drop, List.take_append_drop]
  have hpre : (buf.take offset).length = offset := by simp [List.length_take]; omega
  have hmid : ((buf.drop offset).take (bytes.length + 3)).length = bytes.length + 3 := by
    simp [List.length_take, List.length_drop]
    omega
  have hpost : (buf.drop offset).drop (bytes.length + 3)
      = buf.drop (offset + (bytes.length + 3)) := by
    rw [List.drop_drop, Nat.add_comm]
  calc write_line buf offset kind bytes
      = write_line (buf.take offset ++ ((buf.drop offset).take (bytes.length + 3)
          ++ (buf.drop offset).drop (bytes.length + 3))) (buf.take offset).length kind bytes := by
        rw [← hb, hpre]
    _ = (buf.take offset ++ (kind :: (bytes ++ 13 :: 10 ::
          (buf.drop offset).drop (bytes.length + 3))), .ok (1 + bytes.length + 2)) :=
        write_line_fits _ _ _ _ _ hmid
    _ = (buf.take offset
          ++ (kind :: (bytes ++ 13 :: 10 :: buf.drop (offset + (bytes.length + 3)))),
         .ok (1 + bytes.length + 2)) := by rw [hpost]

/-- write_line never changes the buffer length. -/
theorem write_line_len (buf : List Nat) (offset kind : Nat) (bytes : List Nat) :
    (write_line buf offset kind bytes).1.length = buf.length := by
  rw [write_line]
  rcases h1 : write_bytes buf offset [kind] with ⟨buf1, e1⟩
  have hb1 : buf1.length = buf.length := by
    have h := write_bytes_len buf offset [kind]
    rw [h1] at h
    exact h
  cases e1 with
  | error e => exact hb1
  | ok n1 =>
    simp only []
    rcases h2 : write_bytes buf1 (offset + n1) bytes with ⟨buf2, e2⟩
    have hb2 : buf2.length = buf.length := by
      have h := write_bytes_len buf1 (offset + n1) bytes
      rw [h2] at h
      exact h.trans hb1
    cases e2 with
    | error e => exact hb2
    | ok n2 =>
      simp only []
      rcases h3 : write_bytes buf2 (offset + n1 + n2) [13, 10] with ⟨buf3, e3⟩
      have hb3 : buf3.length = buf.length := by
        have h := write_bytes_len buf2 (offset + n1 + n2) [13, 10]
        rw [h3] at h
        exact h.trans hb2
      cases e3 with
      | error e => exact hb3
      | ok n3 => exact hb3

/-- Failing write_line: the result is BufTooSmall whenever the full
tag + payload + CR LF does not fit. -/
theorem write_line_err (buf : List Nat) (offset kind : Nat) (bytes : List Nat)
    (h : buf.length < offset + (bytes.length + 3)) :
    (write_line buf offset kind bytes).2 = .error .BufTooSmall := by
  rw [write_line]
  by_cases hc1 : buf.length < offset + 1
  · rw [write_bytes_err buf offset [kind] (by simp; omega)]
  · have h1 : write_bytes buf offset [kind]
        = (buf.take offset ++ [kind] ++ buf.drop (offset + 1), .ok 1) :=
      write_bytes_ok buf offset [kind] (by simp; omega)
    rw [h1]
    simp only []
    have hlen1 : (buf.take offset ++ [kind] ++ buf.drop (offset + 1)).length = buf.length := by
      simp [List.length_take, List.length_drop]
      omega
    by_cases hc2 : buf.length < offset + 1 + bytes.length
    · rw [write_bytes_err _ _ _ (by rw [hlen1]; omega)]
    · have h2 : write_bytes (buf.take offset ++ [kind] ++ buf.drop (offset + 1))
          (offset + 1) bytes
          = ((buf.take offset ++ [kind] ++ buf.drop (offset + 1)).take (offset + 1)
              ++ bytes
              ++ (buf.take offset ++ [kind] ++ buf.drop (offset + 1)).drop
                (offset + 1 + bytes.length), .ok bytes.length) :=
        write_bytes_ok _ _ _ (by rw [hlen1]; omega)
      rw [h2]
      simp only []
      have hlen2 : ((buf.take offset ++ [kind] ++ buf.drop (offset + 1)).take (offset + 1)
          ++ bytes
          ++ (buf.take offset ++ [kind] ++ buf.drop (offset + 1)).drop
            (offset + 1 + bytes.length)).length = buf.length := by
        simp [List.length_take, List.length_drop]
        omega
      rw [write_bytes_err _ _ _ (by rw [hlen2]; simp; omega)]

/-- The encoder succeeds on any buffer with room at the offset, writing
the canonical encoding over the middle of it. -/
theorem dump_offset_ok (v : RESP) (buf : List Nat) (offset : Nat)
    (h : offset + (encValue v).length ≤ buf.length) :
    dump_offset v buf offset
      = (buf.take offset ++ (encValue v ++ buf.drop (offset + (encValue v).length)),
         .ok (encValue v).length) := by
  have hb : buf = buf.take offset ++ ((buf.drop offset).take (encValue v).length
      ++ (buf.drop offset).drop (encValue v).length) := by
    rw [List.take_append_drop, List.take_append_drop]
  have hpre : (buf.take offset).length = offset := by simp [List.length_take]; omega
  have hmid : ((buf.drop offset).take (encValue v).length).length = (encValue v).length := by
    simp [List.length_take, List.length_drop]
    omega
  have hpost : (buf.drop offset).drop (encValue v).length
      = buf.drop (offset + (encValue v).length) := by
    rw [List.drop_drop, Nat.add_comm]
  calc dump_offset v buf offset
      = dump_offset v (buf.take offset ++ ((buf.drop offset).take (encValue v).length
          ++ (buf.drop offset).drop (encValue v).length)) (buf.take offset).length := by
        rw [← hb, hpre]
    _ = (buf.take offset ++ (encValue v ++ (buf.drop offset).drop (encValue v).length),
         .ok (encValue v).length) := dump_spec v _ _ _ hmid
    _ = (buf.take offset ++ (encValue v ++ buf.drop (offset + (encValue v).length)),
         .ok (encValue v).length) := by rw [hpost]

/-- The element loop never changes the buffer length, given that the
encoder does not for each element. -/
theorem dumpElems_len : ∀ (l : List RESP) (buf : List Nat) (offset : Nat),
    (∀ r ∈ l, ∀ (buf' : List Nat) (offset' : Nat),
        (dump_offset r buf' offset').1.length = buf'.length) →
    (dumpElems l buf offset).1.length = buf.length := by
  intro l
  induction l with
  | nil => intro buf offset _; rfl
  | cons r t ih =>
    intro buf offset H
    rw [show dumpElems (r :: t) buf offset
        = (match dump_offset r buf offset with
          | (buf1, Except.error e) => (buf1, Except.error e)
          | (buf1, Except.ok m) =>
            match dumpElems t buf1 (offset + m) with
            | (buf2, Except.error e) => (buf2, Except.error e)
            | (buf2, Except.ok k) => (buf2, Except.ok (m + k))) from rfl]
    rcases h1 : dump_offset r buf offset with ⟨buf1, e1⟩
    have hb1 : buf1.length = buf.length := by
      have h := H r (List.mem_cons_self _ _) buf offset
      rw [h1] at h
      exact h
    cases e1 with
    | error e => exact hb1
    | ok m =>
      simp only []
      rcases h2 : dumpElems t buf1 (offset + m) with ⟨buf2, e2⟩
      have hb2 : buf2.length = buf.length := by
        have h := ih buf1 (offset + m) fun r' h' buf' off' =>
          H r' (List.mem_cons_of_mem _ h') buf' off'
        rw [h2] at h
        exact h.trans hb1
      cases e2 with
      | error e => exact hb2
      | ok k => exact hb2

/-- The encoder never changes the buffer length (no out-of-bounds write in
the list model: an out-of-bounds write would lengthen the list). -/
theorem dump_offset_len : ∀ (v : RESP) (buf : List Nat) (offset : Nat),
    (dump_offset v buf offset).1.length = buf.length := by
  refine respStrongInd
    (fun v => ∀ buf offset, (dump_offset v buf offset).1.length = buf.length) ?_
  intro v ih buf offset
  cases v with
  | SimpleString s => exact write_line_len buf offset 43 s
  | Error s => exact write_line_len buf offset 45 s
  | Integer i => exact write_line_len buf offset 58 (intDecimal i)
  | NullBulkString => exact write_bytes_len buf offset [36, 45, 49, 13, 10]
  | NullArray => exact write_bytes_len buf offset [42, 45, 49, 13, 10]
  | BulkString s =>
    rw [show dump_offset (.BulkString s) buf offset
        = (match write_line buf offset 36 (natDecimal s.length) with
          | (buf1, Except.error e) => (buf1, Except.error e)
          | (buf1, Except.ok n) =>
            match write_bytes buf1 (offset + n) s with
            | (buf2, Except.error e) => (buf2, Except.error e)
            | (buf2, Except.ok m) =>
              match write_bytes buf2 (offset + n + m) [13, 10] with
              | (buf3, Except.error e) => (buf3, Except.error e)
              | (buf3, Except.ok k) => (buf3, Except.ok (n + m + k))) from rfl]
    rcases h1 : write_line buf offset 36 (natDecimal s.length) with ⟨buf1, e1⟩
    have hb1 : buf1.length = buf.length := by
      have h := write_line_len buf offset 36 (natDecimal s.length)
      rw [h1] at h
      exact h
    cases e1 with
    | error e => exact hb1
    | ok n =>
      simp only []
      rcases h2 : write_bytes buf1 (offset + n) s with ⟨buf2, e2⟩
      have hb2 : buf2.length = buf.length := by
        have h := write_bytes_len buf1 (offset + n) s
        rw [h2] at h
        exact h.trans hb1
      cases e2 with
      | error e => exact hb2
      | ok m =>
        simp only []
        rcases h3 : write_bytes buf2 (offset + n + m) [13, 10] with ⟨buf3, e3⟩
        have hb3 : buf3.length = buf.length := by
          have h := write_bytes_len buf2 (offset + n + m) [13, 10]
          rw [h3] at h
          exact h.trans hb2
        cases e3 with
        | error e => exact hb3
        | ok k => exact hb3
  | Array l =>
    rw [show dump_offset (.Array l) buf offset
        = (match write_line buf offset 42 (natDecimal l.length) with
          | (buf1, Except.error e) => (buf1, Except.error e)
          | (buf1, Except.ok n) =>
            match dumpElems l buf1 (offset + n) with
            | (buf2, Except.error e) => (buf2, Except.error e)
            | (buf2, Except.ok m) => (buf2, Except.ok (n + m))) from rfl]
    rcases h1 : write_line buf offset 42 (natDecimal l.length) with ⟨buf1, e1⟩
    have hb1 : buf1.length = buf.length := by
      have h := write_line_len buf offset 42 (natDecimal l.length)
      rw [h1] at h
      exact h
    cases e1 with
    | error e => exact hb1
    | ok n =>
      simp only []
      rcases h2 : dumpElems l buf1 (offset + n) with ⟨buf2, e2⟩
      have hb2 : buf2.length = buf.length := by
        have h := dumpElems_len l buf1 (offset + n) fun r hr buf' off' =>
          ih r (sizeOf_mem_lt_array hr) buf' off'
        rw [h2] at h
        exact h.trans hb1
      cases e2 with
      | error e => exact hb2
      | ok m => exact hb2

/-- The element loop fails with BufTooSmall when the remaining capacity
cannot hold the concatenated encodings (given the same for each element). -/
theorem dumpElems_err : ∀ (l : List RESP) (buf : List Nat) (offset : Nat),
    offset ≤ buf.length → buf.length < offset + (encList l).length →
    (∀ r ∈ l, ∀ (buf' : List Nat) (offset' : Nat),
        buf'.length < offset' + (encValue r).length →
        (dump_offset r buf' offset').2 = .error .BufTooSmall) →
    (dumpElems l buf offset).2 = .error .BufTooSmall := by
  intro l
  induction l with
  | nil =>
    intro buf offset hle hlt _
    rw [show (encList ([] : List RESP)).length = 0 from rfl] at hlt
    omega
  | cons r t ih =>
    intro buf offset hle hlt H
    have hlen : (encList (r :: t)).length = (encValue r).length + (encList t).length := by
      rw [show encList (r :: t) = encValue r ++ encList t from rfl, List.length_append]
    rw [show dumpElems (r :: t) buf offset
        = (match dump_offset r buf offset with
          | (buf1, Except.error e) => (buf1, Except.error e)
          | (buf1, Except.ok m) =>
            match dumpElems t buf1 (offset + m) with
            | (buf2, Except.error e) => (buf2, Except.error e)
            | (buf2, Except.ok k) => (buf2, Except.ok (m + k))) from rfl]
    by_cases hc : buf.length < offset + (encValue r).length
    · rcases h1 : dump_offset r buf offset with ⟨buf1, e1⟩
      have he : e1 = .error .BufTooSmall := by
        have h := H r (List.mem_cons_self _ _) buf offset hc
        rw [h1] at h
        exact h
      rw [he]
    · rw [dump_offset_ok r buf offset (by omega)]
      simp only []
      have hb1 : (buf.take offset
          ++ (encValue r ++ buf.drop (offset + (encValue r).length))).length = buf.length := by
        simp [List.length_take, List.length_drop]
        omega
      rcases h2 : dumpElems t
        (buf.take offset ++ (encValue r ++ buf.drop (offset + (encValue r).length)))
        (offset + (encValue r).length) with ⟨buf2, e2⟩
      have he : e2 = .error .BufTooSmall := by
        have h := ih (buf.take offset ++ (encValue r ++ buf.drop (offset + (encValue r).length)))
          (offset + (encValue r).length) (by rw [hb1]; omega) (by rw [hb1]; omega)
          fun r' h' => H r' (List.mem_cons_of_mem _ h')
        rw [h2] at h
        exact h
      rw [he]

/-- The encoder fails with BufTooSmall whenever the encoding does not fit
in the remaining capacity of the buffer. -/
theorem dump_offset_err : ∀ (v : RESP) (buf : List Nat) (offset : Nat),
    buf.length < offset + (encValue v).length →
    (dump_offset v buf offset).2 = .error .BufTooSmall := by
  refine respStrongInd
    (fun v => ∀ buf offset, buf.length < offset + (encValue v).length →
      (dump_offset v buf offset).2 = .error .BufTooSmall) ?_
  intro v ih buf offset h
  cases v with
  | SimpleString s =>
    rw [encSimpleLen] at h
    exact write_line_err buf offset 43 s (by omega)
  | Error s =>
    rw [encErrorLen] at h
    exact write_line_err buf offset 45 s (by omega)
  | Integer i =>
    rw [encIntLen] at h
    exact write_line_err buf offset 58 (intDecimal i) (by omega)
  | NullBulkString =>
    rw [show (encValue RESP.NullBulkString).length = 5 from rfl] at h
    show (write_bytes buf offset [36, 45, 49, 13, 10]).2 = _
    rw [write_bytes_err _ _ _ (by simp; omega)]
  | NullArray =>
    rw [show (encValue RESP.NullArray).length = 5 from rfl] at h
    show (write_bytes buf offset [42, 45, 49, 13, 10]).2 = _
    rw [write_bytes_err _ _ _ (by simp; omega)]
  | BulkString s =>
    rw [encBulkLen] at h
    rw [show dump_offset (.BulkString s) buf offset
        = (match write_line buf offset 36 (natDecimal s.length) with
          | (buf1, Except.error e) => (buf1, Except.error e)
          | (buf1, Except.ok n) =>
            match write_bytes buf1 (offset + n) s with
            | (buf2, Except.error e) => (buf2, Except.error e)
            | (buf2, Except.ok m) =>
              match write_bytes buf2 (offset + n + m) [13, 10] with
              | (buf3, Except.error e) => (buf3, Except.error e)
              | (buf3, Except.ok k) => (buf3, Except.ok (n + m + k))) from rfl]
    by_cases hc1 : buf.length < offset + ((natDecimal s.length).length + 3)
    · rcases h1 : write_line buf offset 36 (natDecimal s.length) with ⟨buf1, e1⟩
      have he : e1 = .error .BufTooSmall := by
        have hh := write_line_err buf offset 36 (natDecimal s.length) (by omega)
        rw [h1] at hh
        exact hh
      rw [he]
    · rw [write_line_ok buf offset 36 (natDecimal s.length) (by omega)]
      simp only []
      have hb1 : (buf.take offset ++ (36 :: (natDecimal s.length ++ 13 :: 10 ::
          buf.drop (offset + ((natDecimal s.length).length + 3))))).length = buf.length := by
        simp [List.length_take, List.length_drop]
        omega
      by_cases hc2 : buf.length < offset + (1 + (natDecimal s.length).length + 2) + s.length
      · rcases h2 : write_bytes (buf.take offset ++ (36 :: (natDecimal s.length ++ 13 :: 10 ::
            buf.drop (offset + ((natDecimal s.length).length + 3)))))
            (offset + (1 + (natDecimal s.length).length + 2)) s with ⟨buf2, e2⟩
        have he : e2 = .error .BufTooSmall := by
          have hh := write_bytes_err (buf.take offset ++ (36 :: (natDecimal s.length ++ 13 :: 10 ::
            buf.drop (offset + ((natDecimal s.length).length + 3)))))
            (offset + (1 + (natDecimal s.length).length + 2)) s (by rw [hb1]; omega)
          rw [h2] at hh
          simp only [Prod.mk.injEq] at hh
          exact hh.2
        rw [he]
      · rw [write_bytes_ok (buf.take offset ++ (36 :: (natDecimal s.length ++ 13 :: 10 ::
          buf.drop (offset + ((natDecimal s.length).length + 3)))))
          (offset + (1 + (natDecimal s.length).length + 2)) s (by rw [hb1]; omega)]
        simp only []
        have hb2 : ((buf.take offset ++ (36 :: (natDecimal s.length ++ 13 :: 10 ::
            buf.drop (offset + ((natDecimal s.length).length + 3))))).take
              (offset + (1 + (natDecimal s.length).length + 2))
            ++ s
            ++ (buf.take offset ++ (36 :: (natDecimal s.length ++ 13 :: 10 ::
              buf.drop (offset + ((natDecimal s.length).length + 3))))).drop
              (offset + (1 + (natDecimal s.length).length + 2) + s.length)).length
            = buf.length := by
          simp [List.length_take, List.length_drop]
          omega
        rcases h3 : write_bytes ((buf.take offset ++ (36 :: (natDecimal s.length ++ 13 :: 10 ::
            buf.drop (offset + ((natDecimal s.length).length + 3))))).take
              (offset + (1 + (natDecimal s.length).length + 2))
            ++ s
            ++ (buf.take offset ++ (36 :: (natDecimal s.length ++ 13 :: 10 ::
              buf.drop (offset + ((natDecimal s.length).length + 3))))).drop
              (offset + (1 + (natDecimal s.length).length + 2) + s.length))
            (offset + (1 + (natDecimal s.length).length + 2) + s.length) [13, 10]
            with ⟨buf3, e3⟩
        have he : e3 = .error .BufTooSmall := by
          have hh := write_bytes_err ((buf.take offset ++ (36 :: (natDecimal s.length ++ 13 :: 10 ::
              buf.drop (offset + ((natDecimal s.length).length + 3))))).take
                (offset + (1 + (natDecimal s.length).length + 2))
              ++ s
              ++ (buf.take offset ++ (36 :: (natDecimal s.length ++ 13 :: 10 ::
                buf.drop (offset + ((natDecimal s.length).length + 3))))).drop
                (offset + (1 + (natDecimal s.length).length + 2) + s.length))
            (offset + (1 + (natDecimal s.length).length + 2) + s.length) [13, 10]
            (by rw [hb2]; simp; omega)
          rw [h3] at hh
          simp only [Prod.mk.injEq] at hh
          exact hh.2
        rw [he]
  | Array l =>
    rw [encArrLen] at h
    rw [show dump_offset (.Array l) buf offset
        = (match write_line buf offset 42 (natDecimal l.length) with
          | (buf1, Except.error e) => (buf1, Except.error e)
          | (buf1, Except.ok n) =>
            match dumpElems l buf1 (offset + n) with
            | (buf2, Except.error e) => (buf2, Except.error e)
            | (buf2, Except.ok m) => (buf2, Except.ok (n + m))) from rfl]
    by_cases hc1 : buf.length < offset + ((natDecimal l.length).length + 3)
    · rcases h1 : write_line buf offset 42 (natDecimal l.length) with ⟨buf1, e1⟩
      have he : e1 = .error .BufTooSmall := by
        have hh := write_line_err buf offset 42 (natDecimal l.length) (by omega)
        rw [h1] at hh
        exact hh
      rw [he]
    · rw [write_line_ok buf offset 42 (natDecimal l.length) (by omega)]
      simp only []
      have hb1 : (buf.take offset ++ (42 :: (natDecimal l.length ++ 13 :: 10 ::
          buf.drop (offset + ((natDecimal l.length).length + 3))))).length = buf.length := by
        simp [List.length_take, List.length_drop]
        omega
      rcases h2 : dumpElems l
        (buf.take offset ++ (42 :: (natDecimal l.length ++ 13 :: 10 ::
          buf.drop (offset + ((natDecimal l.length).length + 3)))))
        (offset + (1 + (natDecimal l.length).length + 2)) with ⟨buf2, e2⟩
      have he : e2 = .error .BufTooSmall := by
        have hh := dumpElems_err l
          (buf.take offset ++ (42 :: (natDecimal l.length ++ 13 :: 10 ::
            buf.drop (offset + ((natDecimal l.length).length + 3)))))
          (offset + (1 + (natDecimal l.length).length + 2))
          (by rw [hb1]; omega) (by rw [hb1]; omega)
          fun r hr buf' off' hlt => ih r (sizeOf_mem_lt_array hr) buf' off' hlt
        rw [h2] at hh
        exact hh
      rw [he]

/-- A chain of successful child parses makes the element loop succeed with
the summed consumed counts and the listed values, in order. -/
theorem chain_elems : ∀ (cs : List (Nat × RESP)) (fuel : Nat) (buf : List Nat) (start : Nat),
    chainParses fuel buf start cs →
    parseElemsGo (parseF fuel) buf start cs.length
      = .ok ((cs.map Prod.fst).sum, cs.map Prod.snd) := by
  intro cs
  induction cs with
  | nil => intro fuel buf start _; exact rfl
  | cons c rest ih =>
    intro fuel buf start hch
    rcases c with ⟨l, v⟩
    rw [show chainParses fuel buf start ((l, v) :: rest)
        = (parseF fuel buf start = .ok (l, v) ∧ chainParses fuel buf (start + l) rest)
        from rfl] at hch
    rw [show ((l, v) :: rest).length = rest.length + 1 from rfl]
    rw [show parseElemsGo (parseF fuel) buf start (rest.length + 1)
        = (match parseF fuel buf start with
          | .ok (l1, v1) =>
            match parseElemsGo (parseF fuel) buf (start + l1) rest.length with
            | .ok (m, vs) => .ok (l1 + m, v1 :: vs)
            | .err e => .err e
            | .crash => .crash
          | .err e => .err e
          | .crash => .crash) from rfl]
    rw [hch.1]
    simp only []
    rw [ih fuel buf (start + l) hch.2]
    simp only []
    simp

/-- After a chain of successful child parses, a failing next child makes
the element loop fail with that child's error, unchanged, whenever the
declared count exceeds the chain length. -/
theorem chain_elems_err : ∀ (cs : List (Nat × RESP)) (k fuel : Nat) (buf : List Nat)
    (start : Nat) (e : ParseError),
    chainParses fuel buf start cs →
    parseF fuel buf (start + (cs.map Prod.fst).sum) = .err e →
    parseElemsGo (parseF fuel) buf start (cs.length + (k + 1)) = .err e := by
  intro cs
  induction cs with
  | nil =>
    intro k fuel buf start e _ herr
    have herr' : parseF fuel buf start = .err e := by
      simpa using herr
    rw [show (([] : List (Nat × RESP)).length + (k + 1)) = k + 1 from by simp]
    rw [show parseElemsGo (parseF fuel) buf start (k + 1)
        = (match parseF fuel buf start with
          | .ok (l1, v1) =>
            match parseElemsGo (parseF fuel) buf (start + l1) k with
            | .ok (m, vs) => .ok (l1 + m, v1 :: vs)
            | .err e => .err e
            | .crash => .crash
          | .err e => .err e
          | .crash => .crash) from rfl]
    rw [herr']
  | cons c rest ih =>
    intro k fuel buf start e hch herr
    rcases c with ⟨l, v⟩
    rw [show chainParses fuel buf start ((l, v) :: rest)
        = (parseF fuel buf start = .ok (l, v) ∧ chainParses fuel buf (start + l) rest)
        from rfl] at hch
    have herr' : parseF fuel buf ((start + l) + (rest.map Prod.fst).sum) = .err e := by
      rw [Nat.add_assoc]
      simpa using herr
    have hcnt : ((l, v) :: rest).length + (k + 1) = (rest.length + (k + 1)) + 1 := by
      simp
      omega
    rw [hcnt]
    rw [show parseElemsGo (parseF fuel) buf start ((rest.length + (k + 1)) + 1)
        = (match parseF fuel buf start with
          | .ok (l1, v1) =>
            match parseElemsGo (parseF fuel) buf (start + l1) (rest.length + (k + 1)) with
            | .ok (m, vs) => .ok (l1 + m, v1 :: vs)
            | .err e => .err e
            | .crash => .crash
          | .err e => .err e
          | .crash => .crash) from rfl]
    rw [hch.1]
    simp only []
    rw [ih k fuel buf (start + l) e hch.2 herr']

/-- C1: For every valid Value v (text payloads valid UTF-8, SimpleString and
Error text free of CR/LF; validity also records that integers and lengths
fit the Rust i64/isize bounds that the Rust types enforce) and every output
buffer large enough for its encoding, dump succeeds returning a written
count, and parse of the first written bytes of the resulting buffer
succeeds returning exactly (written, v). -/
theorem c1_dump_parse_round_trip (v : RESP) (buf : List Nat)
    (hval : validV v = true) (hbuf : (encValue v).length ≤ buf.length) :
    ∃ (written : Nat) (buf' : List Nat),
      dump v buf = (buf', .ok written)
      ∧ parse (buf'.take written) = .ok (written, v) := by
  refine ⟨(encValue v).length, encValue v ++ buf.drop (encValue v).length, ?_, ?_⟩
  · show dump_offset v buf 0 = _
    have h := dump_offset_ok v buf 0 (by omega)
    rw [h]
    simp
  · have htake : (encValue v ++ buf.drop (encValue v).length).take (encValue v).length
        = encValue v := take_pre _ _ rfl
    rw [htake]
    have hp := parse_enc v hval ((encValue v).length + 1) [] []
      (le_trans (depth_le_encLen v) (Nat.le_succ _))
    rw [List.nil_append, List.append_nil] at hp
    exact hp

/-- Witness for C1 at a concrete mixed array value and a 40-byte buffer. -/
theorem c1_witness :
    validV (RESP.Array [.BulkString [102, 111, 111], .Integer (-5),
      .SimpleString [79, 75]]) = true
    ∧ ∃ (written : Nat) (buf' : List Nat),
        dump (RESP.Array [.BulkString [102, 111, 111], .Integer (-5),
          .SimpleString [79, 75]]) (List.replicate 40 0) = (buf', .ok written)
        ∧ parse (buf'.take written)
          = .ok (written, RESP.Array [.BulkString [102, 111, 111], .Integer (-5),
              .SimpleString [79, 75]]) :=
  ⟨rfl, c1_dump_parse_round_trip _ (List.replicate 40 0) rfl (by decide)⟩

/-- C2: the spec says every input returns a typed error value, but
parse of the empty buffer indexes buf[0] without a bounds check and
panics (modelled as crash), contradicting the crate doc "All failures are
returned as explicit errors". -/
theorem c2_parse_empty_crash : parse [] = .crash := rfl

/-- C3: the spec says the line scanner stops with CLRFNotFound when fewer
than 2 bytes remain past the scan position, but the source's end test is
current + 1 >= buf.len(), ignoring offset, so the scan reads past the end
of the buffer and panics: read_line of b"+a\r" from offset 1 crashes, and
so does parse of b"*1\r\n+abc" via its array element. -/
theorem c3_read_line_crash :
    read_line [43, 97, 13] 1 = .crash
    ∧ parse [42, 49, 13, 10, 43, 97, 98, 99] = .crash := ⟨rfl, rfl⟩

/-- C4: For every buffer starting with the BulkString tag whose length line
parses to len >= 0 and whose payload of len bytes lies within the buffer,
parse reads exactly those len bytes starting right after the length line,
succeeds with consumed = lineBytes + 1 + len + 2 and BulkString of the
payload when it is valid UTF-8, and fails with Utf8Error otherwise; the two
trailing bytes are skipped without being inspected (the hypotheses say
nothing about them). -/
theorem c4_bulk_string_parse (buf : List Nat) (n : Nat) (line : List Nat) (len : Int)
    (htag : byteAt buf 0 = some 36)
    (hline : read_line buf 1 = .ok (n, line))
    (hlen : parseI64 line = some len)
    (hpos : 0 ≤ len)
    (hroom : n + 1 + len.toNat ≤ buf.length) :
    (utf8Valid ((buf.drop (n + 1)).take len.toNat) = true →
      parse buf = .ok (n + 1 + len.toNat + 2, .BulkString ((buf.drop (n + 1)).take len.toNat)))
    ∧ (utf8Valid ((buf.drop (n + 1)).take len.toNat) = false →
      parse buf = .err .Utf8Error) := by
  rw [parse_eq buf, parseStep_tag36 (parseF buf.length) buf 0 htag, hline]
  simp only []
  rw [hlen]
  simp only []
  rw [if_neg (show ¬(len < 0) by omega)]
  rw [if_neg (show ¬(0 + n + 1 + len.toNat > buf.length) by omega)]
  rw [show (0 : Nat) + n + 1 = n + 1 from by omega]
  constructor
  · intro hu
    rw [if_pos hu]
  · intro hu
    rw [if_neg (by simp [hu])]

/-- Witness for C4 on b"$3\r\nfoo\r\n". -/
theorem c4_witness :
    parse [36, 51, 13, 10, 102, 111, 111, 13, 10]
      = .ok (9, .BulkString [102, 111, 111]) :=
  (c4_bulk_string_parse [36, 51, 13, 10, 102, 111, 111, 13, 10] 3 [51] 3
    rfl rfl rfl (by decide) (by decide)).1 rfl

/-- C5: For every buffer position holding the Array tag whose length line
parses to len >= 0, the parser parses exactly len children back to back in
strict left-to-right order (a chain of child parses each starting where the
previous ended): when a full chain of len children succeeds the array parse
succeeds with consumed = lineBytes + 1 + sum of the children's consumed
counts and the children's values in order; and when, after a successful
chain shorter than len, the next child fails with an error, the whole array
parse fails with that error unchanged. -/
theorem c5_array_parse (fuel : Nat) (buf : List Nat) (offset n : Nat) (line : List Nat)
    (len : Int) (cs : List (Nat × RESP))
    (htag : byteAt buf offset = some 42)
    (hline : read_line buf (offset + 1) = .ok (n, line))
    (hlen : parseI64 line = some len)
    (hpos : 0 ≤ len)
    (hchain : chainParses fuel buf (offset + n + 1) cs) :
    (cs.length = len.toNat →
      parseF (fuel + 1) buf offset
        = .ok (n + 1 + (cs.map Prod.fst).sum, .Array (cs.map Prod.snd)))
    ∧ (∀ e : ParseError, cs.length < len.toNat →
      parseF fuel buf (offset + n + 1 + (cs.map Prod.fst).sum) = .err e →
      parseF (fuel + 1) buf offset = .err e) := by
  rw [parseF_succ, parseStep_tag42 (parseF fuel) buf offset htag, hline]
  simp only []
  rw [hlen]
  simp only []
  rw [if_neg (show ¬(len < 0) by omega)]
  constructor
  · intro hcnt
    rw [← hcnt, chain_elems cs fuel buf (offset + n + 1) hchain]
  · intro e hcnt herr
    have hk : len.toNat = cs.length + ((len.toNat - cs.length - 1) + 1) := by omega
    rw [hk, chain_elems_err cs (len.toNat - cs.length - 1) fuel buf (offset + n + 1) e
      hchain herr]

/-- Witness for C5 on b"*1\r\n+OK\r\n" with a one-element chain. -/
theorem c5_witness :
    parseF 2 [42, 49, 13, 10, 43, 79, 75, 13, 10] 0
      = .ok (9, .Array [.SimpleString [79, 75]]) :=
  (c5_array_parse 1 [42, 49, 13, 10, 43, 79, 75, 13, 10] 0 3 [49] 1
    [(5, .SimpleString [79, 75])] rfl rfl rfl (by decide) ⟨rfl, trivial⟩).1 rfl

/-- C6: any negative parsed length (not only -1) makes a BulkString parse
return NullBulkString and an Array parse return NullArray, consuming
1 + lineBytes and reading no payload; in particular parse of b"$-1\r\n" is
(5, NullBulkString) and parse of b"*-1\r\n" is (5, NullArray). -/
theorem c6_negative_lengths :
    (∀ (buf : List Nat) (n : Nat) (line : List Nat) (len : Int),
      byteAt buf 0 = some 36 → read_line buf 1 = .ok (n, line) →
      parseI64 line = some len → len < 0 →
      parse buf = .ok (n + 1, .NullBulkString))
    ∧ (∀ (buf : List Nat) (n : Nat) (line : List Nat) (len : Int),
      byteAt buf 0 = some 42 → read_line buf 1 = .ok (n, line) →
      parseI64 line = some len → len < 0 →
      parse buf = .ok (n + 1, .NullArray))
    ∧ parse [36, 45, 49, 13, 10] = .ok (5, .NullBulkString)
    ∧ parse [42, 45, 49, 13, 10] = .ok (5, .NullArray) := by
  refine ⟨?_, ?_, rfl, rfl⟩
  · intro buf n line len htag hline hlen hneg
    rw [parse_eq buf, parseStep_tag36 (parseF buf.length) buf 0 htag, hline]
    simp only []
    rw [hlen]
    simp only []
    rw [if_pos hneg]
  · intro buf n line len htag hline hlen hneg
    rw [parse_eq buf, parseStep_tag42 (parseF buf.length) buf 0 htag, hline]
    simp only []
    rw [hlen]
    simp only []
    rw [if_pos hneg]

/-- Witness for C6 at length -2 (not just -1), for both null variants. -/
theorem c6_witness :
    parse [36, 45, 50, 13, 10] = .ok (5, .NullBulkString)
    ∧ parse [42, 45, 50, 13, 10] = .ok (5, .NullArray) :=
  ⟨c6_negative_lengths.1 [36, 45, 50, 13, 10] 4 [45, 50] (-2) rfl rfl rfl (by decide),
   c6_negative_lengths.2.1 [42, 45, 50, 13, 10] 4 [45, 50] (-2) rfl rfl rfl (by decide)⟩

/-- C7: dump produces exactly the canonical grammar encoding encValue
(tag + text/decimal + CR LF forms, the 5-byte null variants, and arrays as
header followed by each element's encoding in order): on any large enough
buffer the written prefix is encValue v and the count is its length. -/
theorem c7_dump_canonical (v : RESP) (buf : List Nat)
    (h : (encValue v).length ≤ buf.length) :
    dump v buf = (encValue v ++ buf.drop (encValue v).length, .ok (encValue v).length) := by
  show dump_offset v buf 0 = _
  have hd := dump_offset_ok v buf 0 (by omega)
  rw [hd]
  simp

/-- Witness for C7: Integer 44 encodes to b":44\r\n" and BulkString ""
to b"$0\r\n\r\n", byte for byte. -/
theorem c7_witness :
    dump (.Integer 44) [0, 0, 0, 0, 0] = ([58, 52, 52, 13, 10], .ok 5)
    ∧ dump (.BulkString []) [0, 0, 0, 0, 0, 0] = ([36, 48, 13, 10, 13, 10], .ok 6) :=
  ⟨c7_dump_canonical (.Integer 44) [0, 0, 0, 0, 0] (by decide),
   c7_dump_canonical (.BulkString []) [0, 0, 0, 0, 0, 0] (by decide)⟩

/-- C8: for every value and output buffer, dump either succeeds (exactly
when the encoding fits) or fails with BufTooSmall (exactly when it does
not), and in all cases the buffer keeps its length: in this list model an
out-of-bounds write would change the length, so this is the no
out-of-bounds-write property. -/
theorem c8_dump_safety (v : RESP) (buf : List Nat) :
    (dump v buf).1.length = buf.length
    ∧ ((encValue v).length ≤ buf.length → (dump v buf).2 = .ok (encValue v).length)
    ∧ (buf.length < (encValue v).length → (dump v buf).2 = .error .BufTooSmall) := by
  refine ⟨dump_offset_len v buf 0, ?_, ?_⟩
  · intro h
    have hd := dump_offset_ok v buf 0 (by omega)
    rw [show dump v buf = dump_offset v buf 0 from rfl, hd]
  · intro h
    exact dump_offset_err v buf 0 (by omega)

/-- Witness for C8: a fitting and a non-fitting buffer for Integer 44. -/
theorem c8_witness :
    (dump (.Integer 44) [0, 0, 0, 0, 0]).2 = .ok 5
    ∧ (dump (.Integer 44) [0]).2 = .error .BufTooSmall :=
  ⟨(c8_dump_safety (.Integer 44) [0, 0, 0, 0, 0]).2.1 (by decide),
   (c8_dump_safety (.Integer 44) [0]).2.2 (by decide)⟩

/-- C9: there is a buffer on which parse succeeds yet reports more consumed
bytes than the buffer holds: on the 7-byte b"$3\r\nfoo" (payload present,
trailing CR LF absent) parse succeeds with consumed = 9, because the
presence of the two trailing bytes is never checked. -/
theorem c9_over_consume :
    parse [36, 51, 13, 10, 102, 111, 111] = .ok (9, .BulkString [102, 111, 111])
    ∧ ([36, 51, 13, 10, 102, 111, 111] : List Nat).length = 7 ∧ 7 < 9 :=
  ⟨rfl, rfl, by decide⟩

/-- C10: whenever dump succeeds returning a written count, every byte of
the buffer at an index at or past that count is unchanged: the suffix from
the written count on is identical before and after the call. -/
theorem c10_dump_frame (v : RESP) (buf : List Nat) (n : Nat) (buf' : List Nat)
    (h : dump v buf = (buf', .ok n)) :
    buf'.drop n = buf.drop n := by
  by_cases hfit : (encValue v).length ≤ buf.length
  · have hd := dump_offset_ok v buf 0 (by omega)
    rw [show dump v buf = dump_offset v buf 0 from rfl, hd] at h
    simp only [Prod.mk.injEq, Except.ok.injEq] at h
    obtain ⟨hb, hn⟩ := h
    subst hb
    subst hn
    simp only [List.take_zero, List.nil_append, Nat.zero_add]
    exact drop_pre _ _ rfl
  · exfalso
    have he := dump_offset_err v buf 0 (by omega)
    rw [show dump_offset v buf 0 = dump v buf from rfl, h] at he
    simp at he

/-- Witness for C10 on Integer 44 over a 7-byte buffer with a live tail. -/
theorem c10_witness :
    dump (.Integer 44) [9, 9, 9, 9, 9, 8, 7] = ([58, 52, 52, 13, 10, 8, 7], .ok 5)
    ∧ List.drop 5 [58, 52, 52, 13, 10, 8, 7] = List.drop 5 ([9, 9, 9, 9, 9, 8, 7] : List Nat) :=
  ⟨rfl, c10_dump_frame (.Integer 44) [9, 9, 9, 9, 9, 8, 7] 5 [58, 52, 52, 13, 10, 8, 7] rfl⟩
